import Mathlib

/-!
Verification of the similarity-and-clustering core of the
Algo-Plagirism-Detector repository.

Each definition is a shallow embedding of the corresponding Python
function, keeping the source's names where Lean allows.  Node ids
(submission ids, B+ tree keys) are modelled as `Nat`; similarity
weights as `ℚ` (the code's float arithmetic on these claims only uses
comparisons, additions and one exact division).  The MD5 hash of a
k-gram string is modelled as the k-gram string itself: every claim
below depends only on equality of hashes on equal strings.
-/

namespace PlagDetector

/-! ## RabinKarp (rabin_karp.py)

`_generate_k_grams` builds an insertion-ordered association list from
the hash of each k-gram (the joined token window) to the ascending
list of start positions, mirroring the Python dict. -/

/-- Append a position to the entry of `h` in the k-gram index, creating the
entry at the end when absent (Python dict insertion semantics). -/
def addPos (h : String) (i : Nat) : List (String × List Nat) → List (String × List Nat)
  | [] => [(h, [i])]
  | (h0, ps) :: rest =>
      if h0 = h then (h0, ps ++ [i]) :: rest else (h0, ps) :: addPos h i rest

/-- `' '.join(tokens[i:i+k])`. -/
def joinSpace : List String → String
  | [] => ""
  | [t] => t
  | t :: rest => t ++ " " ++ joinSpace rest

/-- `RabinKarp._generate_k_grams`: empty when the list is shorter than the
k-gram size, else the loop `for i in range(L - k + 1)` over the start
positions, indexing each window under its hash. -/
def generate_k_grams (k : Nat) (tokens : List String) : List (String × List Nat) :=
  if tokens.length < k then []
  else (List.range (tokens.length - k + 1)).foldl
    (fun acc i => addPos (joinSpace ((tokens.drop i).take k)) i acc) []

/-- `RabinKarp._find_matches`: the hash values appearing in both indexes. -/
def find_matches (g1 g2 : List (String × List Nat)) : List String :=
  (g1.map Prod.fst).filter (fun h => decide (h ∈ g2.map Prod.fst))

/-- `RabinKarp.calculate_similarity`: set-Jaccard similarity over k-gram
hash sets, with the source's guards for empty inputs and empty union. -/
def calculate_similarity (k : Nat) (tokens1 tokens2 : List String) : ℚ :=
  if tokens1 = [] ∨ tokens2 = [] then 0
  else
    let k_grams1 := generate_k_grams k tokens1
    let k_grams2 := generate_k_grams k tokens2
    if k_grams1 = [] ∨ k_grams2 = [] then 0
    else
      let hits := find_matches k_grams1 k_grams2
      let union_size : ℤ := (k_grams1.length : ℤ) + k_grams2.length - hits.length
      if union_size = 0 then 0 else (hits.length : ℚ) / (union_size : ℚ)

/-! ## CodeParser (code_parser.py) -/

/-- The `COMMON_KEYWORDS` set of `CodeParser`. -/
def COMMON_KEYWORDS : List String :=
  ["if", "else", "for", "while", "return", "function", "class", "def",
   "int", "float", "string", "bool", "true", "false", "null", "None",
   "public", "private", "protected", "static", "void", "import", "from"]

/-- Python `token.isspace()`: nonempty and all whitespace. -/
def isSpaceTok (s : String) : Bool :=
  s.length ≠ 0 && s.toList.all Char.isWhitespace

/-- The identifier-normalisation walk at the end of `CodeParser.tokenize`,
operating on the token list produced by the tokenisation regex.  State:
the `var_map` association list and the `var_counter`.  Note the branch
order of the source: a token whose first character is not a letter is kept
verbatim *before* the underscore test of the next branch is reached. -/
def normalizeAux : List String → List (String × String) → Nat → List String
  | [], _, _ => []
  | token :: rest, var_map, var_counter =>
      if isSpaceTok token || token.length = 0 then
        normalizeAux rest var_map var_counter
      else if COMMON_KEYWORDS.contains token
              || !(token.toList.headD 'a').isAlpha
              || token = "STRING_LITERAL" then
        token :: normalizeAux rest var_map var_counter
      else if (token.toList.headD 'a').isAlpha
              || (token.toList.headD 'a') = '_' then
        match var_map.lookup token with
        | some name => name :: normalizeAux rest var_map var_counter
        | none =>
            ("VAR_" ++ toString var_counter) ::
              normalizeAux rest (var_map ++ [(token, "VAR_" ++ toString var_counter)])
                (var_counter + 1)
      else
        token :: normalizeAux rest var_map var_counter

/-- `CodeParser.tokenize`, restricted to its normalisation pass: the comment
and string-literal regex phases act on raw text before token splitting and
are identity on the token lists considered here. -/
def normalizeTokens (tokens : List String) : List String :=
  normalizeAux tokens [] 0

/-- The loop of `CodeParser._extract_blocks`: state is the accumulated
`blocks`, the `current_block`, and the integer `block_level` (which the
source increments on `class`, `def` and `\x7b`, and decrements on `\x7d`). -/
def extractBlocksAux : List String → List (List String) → List String → Int →
    List (List String)
  | [], blocks, current_block, _ =>
      blocks ++ (if current_block = [] then [] else [current_block])
  | token :: rest, blocks, current_block, block_level =>
      if token = "class" || token = "def" then
        if block_level = 0 then
          extractBlocksAux rest
            (blocks ++ (if current_block = [] then [] else [current_block]))
            [token] (block_level + 1)
        else
          extractBlocksAux rest blocks (current_block ++ [token]) (block_level + 1)
      else if token = "\x7b" then
        extractBlocksAux rest blocks (current_block ++ [token]) (block_level + 1)
      else if token = "\x7d" then
        if block_level - 1 = 0 && current_block ++ [token] ≠ [] then
          extractBlocksAux rest (blocks ++ [current_block ++ [token]]) [] (block_level - 1)
        else
          extractBlocksAux rest blocks (current_block ++ [token]) (block_level - 1)
      else
        extractBlocksAux rest blocks (current_block ++ [token]) block_level

/-- `CodeParser._extract_blocks`. -/
def extract_blocks (tokens : List String) : List (List String) :=
  extractBlocksAux tokens [] [] 0

/-! ## Similarity lemmas (claims C5, C9) -/

theorem addPos_ne_nil (h : String) (i : Nat) (acc : List (String × List Nat)) :
    addPos h i acc ≠ [] := by
  cases acc with
  | nil => simp [addPos]
  | cons p rest =>
      obtain ⟨h0, ps⟩ := p
      unfold addPos
      split <;> simp

theorem foldl_addPos_ne_nil (f : Nat → String) (is : List Nat)
    (acc : List (String × List Nat)) (hacc : acc ≠ []) :
    is.foldl (fun acc i => addPos (f i) i acc) acc ≠ [] := by
  induction is generalizing acc with
  | nil => simpa
  | cons i rest ih => exact ih _ (addPos_ne_nil _ _ _)

theorem foldl_addPos_ne_nil_of_ne (f : Nat → String) (is : List Nat)
    (acc : List (String × List Nat)) (his : is ≠ []) :
    is.foldl (fun acc i => addPos (f i) i acc) acc ≠ [] := by
  cases is with
  | nil => exact absurd rfl his
  | cons i rest => exact foldl_addPos_ne_nil f rest _ (addPos_ne_nil _ _ _)

theorem generate_k_grams_ne_nil (k : Nat) (A : List String)
    (hk : 1 ≤ k) (hA : k ≤ A.length) : generate_k_grams k A ≠ [] := by
  unfold generate_k_grams
  rw [if_neg (by omega)]
  refine foldl_addPos_ne_nil_of_ne _ _ _ ?_
  rw [ne_eq, List.range_eq_nil]
  omega

/-- claim C5: for every token list `A` of length at least the k-gram size
`k ≥ 1`, `calculate_similarity A A` is exactly `1`. -/
theorem calculate_similarity_self (k : Nat) (A : List String)
    (hk : 1 ≤ k) (hA : k ≤ A.length) : calculate_similarity k A A = 1 := by
  have hAne : ¬(A = [] ∨ A = []) := by
    rintro (h | h) <;> (subst h; simp at hA; omega)
  have hg : generate_k_grams k A ≠ [] := generate_k_grams_ne_nil k A hk hA
  have hfm : find_matches (generate_k_grams k A) (generate_k_grams k A)
      = (generate_k_grams k A).map Prod.fst := by
    unfold find_matches
    rw [List.filter_eq_self]
    intro a ha
    exact decide_eq_true ha
  have hlen : (0 : ℤ) < ((generate_k_grams k A).length : ℤ) := by
    exact_mod_cast List.length_pos.mpr hg
  unfold calculate_similarity
  rw [if_neg hAne]
  simp only
  rw [if_neg (by simp [hg]), hfm, List.length_map]
  have hu : ((generate_k_grams k A).length : ℤ) + ((generate_k_grams k A).length : ℤ)
      - ((generate_k_grams k A).length : ℤ) = ((generate_k_grams k A).length : ℤ) := by ring
  rw [hu, if_neg (by omega)]
  rw [div_eq_one_iff_eq (by exact_mod_cast hlen.ne')]
  push_cast
  ring

theorem calculate_similarity_self_witness :
    (1 ≤ 5 ∧ 5 ≤ (List.replicate 5 "a").length) ∧
      calculate_similarity 5 (List.replicate 5 "a") (List.replicate 5 "a") = 1 :=
  ⟨by decide, calculate_similarity_self 5 (List.replicate 5 "a") (by decide) (by decide)⟩

/-- claim C9: two distinct token lists, both of length at least the k-gram
size, on which `calculate_similarity` returns exactly `1`: five copies of a
token versus six copies of the same token. -/
theorem similarity_one_of_distinct_lists :
    calculate_similarity 5 (List.replicate 5 "a") (List.replicate 6 "a") = 1
    ∧ (List.replicate 5 "a" : List String) ≠ List.replicate 6 "a"
    ∧ 5 ≤ (List.replicate 5 "a").length
    ∧ 5 ≤ (List.replicate 6 "a").length := by
  refine ⟨?_, by decide, by decide, by decide⟩
  have hg1 : generate_k_grams 5 (List.replicate 5 "a") = [("a a a a a", [0])] := by decide
  have hg2 : generate_k_grams 5 (List.replicate 6 "a") = [("a a a a a", [0, 1])] := by decide
  have hfm : find_matches [("a a a a a", [0])] [("a a a a a", [0, 1])]
      = ["a a a a a"] := by decide
  unfold calculate_similarity
  rw [if_neg (by decide)]
  simp only [hg1, hg2]
  rw [if_neg (by decide), hfm]
  norm_num

/-! ## Block-extractor lemmas (claim C3) -/

/-- claim C3, counterexample: a brace-free python token list with two
successive top-level `def` definitions is returned as a single block — the
second `def` is seen at `block_level = 1` (the first `def` incremented the
counter and nothing decremented it), so it does not open a new block. -/
theorem extract_blocks_two_defs_one_block :
    extract_blocks ["def", "f", "(", ")", ":", "x", "def", "g", "(", ")", ":", "y"]
      = [["def", "f", "(", ")", ":", "x", "def", "g", "(", ")", ":", "y"]]
    ∧ ["def", "g", "(", ")", ":", "y"]
        ∉ extract_blocks ["def", "f", "(", ")", ":", "x", "def", "g", "(", ")", ":", "y"] := by
  decide

theorem extractBlocksAux_high (ts : List String) (blocks : List (List String))
    (cur : List String) (l : Int) (h : ∀ t ∈ ts, t ≠ "\x7b" ∧ t ≠ "\x7d")
    (hl : 1 ≤ l) (hcur : cur ≠ []) :
    extractBlocksAux ts blocks cur l = blocks ++ [cur ++ ts] := by
  induction ts generalizing blocks cur l with
  | nil => simp [extractBlocksAux, hcur]
  | cons t rest ih =>
      have ht := h t (by simp)
      have hrest : ∀ t ∈ rest, t ≠ "\x7b" ∧ t ≠ "\x7d" := fun t htm => h t (by simp [htm])
      unfold extractBlocksAux
      by_cases hc : t = "class" ∨ t = "def"
      · rw [if_pos (by simpa [decide_eq_true_iff] using hc)]
        rw [if_neg (by omega)]
        rw [ih _ _ _ hrest (by omega) (by simp)]
        simp
      · rw [if_neg (by simpa [decide_eq_true_iff] using hc)]
        rw [if_neg (by simp [ht.1]), if_neg (by simp [ht.2])]
        rw [ih _ _ _ hrest hl (by simp)]
        simp

theorem extractBlocksAux_zero (ts : List String) (blocks : List (List String))
    (cur : List String) (h : ∀ t ∈ ts, t ≠ "\x7b" ∧ t ≠ "\x7d") :
    extractBlocksAux ts blocks cur 0 =
      blocks
        ++ (if cur ++ ts.takeWhile (fun t => !(t = "class" || t = "def")) = []
            then [] else [cur ++ ts.takeWhile (fun t => !(t = "class" || t = "def"))])
        ++ (if ts.dropWhile (fun t => !(t = "class" || t = "def")) = []
            then [] else [ts.dropWhile (fun t => !(t = "class" || t = "def"))]) := by
  induction ts generalizing blocks cur with
  | nil => simp [extractBlocksAux]
  | cons t rest ih =>
      have ht := h t (by simp)
      have hrest : ∀ t ∈ rest, t ≠ "\x7b" ∧ t ≠ "\x7d" := fun t htm => h t (by simp [htm])
      by_cases hc : t = "class" ∨ t = "def"
      · have hdec : (t = "class" || t = "def") = true := by
          simpa [decide_eq_true_iff] using hc
        unfold extractBlocksAux
        rw [if_pos hdec, if_pos rfl]
        rw [extractBlocksAux_high rest _ _ _ hrest (by omega) (by simp)]
        rw [List.takeWhile_cons, List.dropWhile_cons]
        simp only [hdec, Bool.not_true, Bool.false_eq_true, if_false, reduceIte]
        simp
      · have hdec : (t = "class" || t = "def") = false := by
          simpa [decide_eq_true_iff] using hc
        unfold extractBlocksAux
        rw [if_neg (by simp [hdec]), if_neg (by simp [ht.1]),
          if_neg (by simp [ht.2])]
        rw [ih _ _ hrest]
        rw [List.takeWhile_cons, List.dropWhile_cons]
        simp only [hdec, Bool.not_false, if_true, reduceIte]
        simp

/-- claim C3, amended: in `_extract_blocks` the level counter is incremented
by `class` and `def` themselves (as well as by `\x7b`), so on a brace-free
token list the counter never returns to 0 after the first top-level
definition: the output is at most two blocks — the tokens before the first
`class`/`def`, and all remaining tokens (every later definition included) as
one single block. -/
theorem extract_blocks_braceFree (ts : List String)
    (h : ∀ t ∈ ts, t ≠ "\x7b" ∧ t ≠ "\x7d") :
    extract_blocks ts =
      (if ts.takeWhile (fun t => !(t = "class" || t = "def")) = []
       then [] else [ts.takeWhile (fun t => !(t = "class" || t = "def"))])
      ++ (if ts.dropWhile (fun t => !(t = "class" || t = "def")) = []
          then [] else [ts.dropWhile (fun t => !(t = "class" || t = "def"))]) := by
  unfold extract_blocks
  rw [extractBlocksAux_zero ts [] [] h]
  simp

theorem extract_blocks_braceFree_witness :
    extract_blocks ["x", "=", "1", "def", "f", ":", "y", "def", "g", ":", "z"]
      = [["x", "=", "1"], ["def", "f", ":", "y", "def", "g", ":", "z"]] := by
  rw [extract_blocks_braceFree _ (by decide)]
  decide

/-! ## Identifier-normalisation divergence (claim C4) -/

/-- claim C4: the branch `not token[0].isalpha()` of `tokenize` captures
every identifier beginning with an underscore and passes it through
verbatim, so the later `token[0] == '_'` test is dead code: renaming the
identifier `_x` to the fresh identifier `_y` changes the token stream,
while letter-initial identifiers are normalised as the claim states. -/
theorem underscore_identifiers_not_normalized :
    normalizeTokens ["x"] = ["VAR_0"]
    ∧ normalizeTokens ["y"] = ["VAR_0"]
    ∧ normalizeTokens ["_x"] = ["_x"]
    ∧ normalizeTokens ["_y"] = ["_y"]
    ∧ normalizeTokens ["_x"] ≠ normalizeTokens ["_y"] := by decide

/-! ## SimilarityGraph (similarity_graph.py)

The Python adjacency structure is a dict of dicts; both levels are
modelled as insertion-ordered association lists, matching dict
semantics (updating an existing key keeps its position, a new key is
appended at the end). -/

/-- Python `d[k] = v` on an adjacency dict. -/
def dictSet (k : Nat) (v : ℚ) : List (Nat × ℚ) → List (Nat × ℚ)
  | [] => [(k, v)]
  | (k0, v0) :: rest => if k0 = k then (k0, v) :: rest else (k0, v0) :: dictSet k v rest

/-- Python `del d[k]` on an adjacency dict, a no-op when the key is absent
(every call site guards with a membership test). -/
def dictDel (k : Nat) : List (Nat × ℚ) → List (Nat × ℚ)
  | [] => []
  | (k0, v0) :: rest => if k0 = k then rest else (k0, v0) :: dictDel k rest

/-- Graph state of `SimilarityGraph`: the threshold and the adjacency
mapping `self.graph`. -/
structure SimilarityGraph where
  similarity_threshold : ℚ
  graph : List (Nat × List (Nat × ℚ))
deriving DecidableEq

/-- `SimilarityGraph.get_nodes`. -/
def get_nodes (g : SimilarityGraph) : List Nat := g.graph.map Prod.fst

/-- `SimilarityGraph.get_neighbors`: the adjacency dict of `node`, empty
when the node is absent. -/
def get_neighbors (g : SimilarityGraph) (node : Nat) : List (Nat × ℚ) :=
  (g.graph.lookup node).getD []

/-- `SimilarityGraph.get_edge_weight`: `0` when either the node or the
edge is absent. -/
def get_edge_weight (g : SimilarityGraph) (node1 node2 : Nat) : ℚ :=
  match g.graph.lookup node1 with
  | none => 0
  | some adj => (adj.lookup node2).getD 0

/-- `SimilarityGraph.add_node`: append the node with an empty adjacency
dict unless it is already present. -/
def add_node (g : SimilarityGraph) (node_id : Nat) : SimilarityGraph :=
  if node_id ∈ g.graph.map Prod.fst then g
  else ⟨g.similarity_threshold, g.graph ++ [(node_id, [])]⟩

/-- Python `self.graph[u][v] = w`: rewrite the adjacency dict of `u` in
place (the caller `add_edge` has already ensured `u` is present). -/
def setAdj (u v : Nat) (w : ℚ) : List (Nat × List (Nat × ℚ)) → List (Nat × List (Nat × ℚ))
  | [] => []
  | (n, adj) :: rest =>
      if n = u then (n, dictSet v w adj) :: rest else (n, adj) :: setAdj u v w rest

/-- `SimilarityGraph.add_edge`: drop the edge below the threshold, else
ensure both nodes exist and set the weight in both directions.  Note the
source has no guard against `node1 = node2`. -/
def add_edge (g : SimilarityGraph) (node1 node2 : Nat) (weight : ℚ) : SimilarityGraph :=
  if weight < g.similarity_threshold then g
  else
    let g2 := add_node (add_node g node1) node2
    ⟨g.similarity_threshold, setAdj node2 node1 weight (setAdj node1 node2 weight g2.graph)⟩

/-- Python `del self.graph[node]`. -/
def graphDel (node : Nat) : List (Nat × List (Nat × ℚ)) → List (Nat × List (Nat × ℚ))
  | [] => []
  | (n, adj) :: rest => if n = node then rest else (n, adj) :: graphDel node rest

/-- The neighbour loop of `remove_node`: in the entry of `nbr`, delete the
key `node` when present. -/
def delFromAdj (nbr node : Nat) : List (Nat × List (Nat × ℚ)) → List (Nat × List (Nat × ℚ))
  | [] => []
  | (n, adj) :: rest =>
      if n = nbr then (n, dictDel node adj) :: rest else (n, adj) :: delFromAdj nbr node rest

/-- `SimilarityGraph.remove_node`: unlink the node from every neighbour,
then delete it.  (The Python loop iterates over `self.graph[node]` while
possibly deleting from it; that only happens when `node` is its own
neighbour, which cannot occur under the self-loop-free precondition of the
amended claim C2.) -/
def remove_node (g : SimilarityGraph) (node : Nat) : SimilarityGraph :=
  if node ∈ g.graph.map Prod.fst then
    ⟨g.similarity_threshold,
      graphDel node
        ((get_neighbors g node).foldl (fun acc p => delFromAdj p.1 node acc) g.graph)⟩
  else g

/-- One public mutation of a `SimilarityGraph`. -/
inductive GraphOp where
  | addNode (u : Nat)
  | addEdge (u v : Nat) (w : ℚ)
  | removeNode (u : Nat)
deriving DecidableEq

/-- Apply one operation. -/
def applyOp (g : SimilarityGraph) : GraphOp → SimilarityGraph
  | .addNode u => add_node g u
  | .addEdge u v w => add_edge g u v w
  | .removeNode u => remove_node g u

/-- Apply a sequence of operations to the empty graph with the given
threshold. -/
def applyOps (threshold : ℚ) (ops : List GraphOp) : SimilarityGraph :=
  ops.foldl applyOp ⟨threshold, []⟩

/-- No node of the graph is a key of its own adjacency dict. -/
def NoSelfLoop (g : SimilarityGraph) : Prop :=
  ∀ p ∈ g.graph, p.1 ∉ p.2.map Prod.fst

/-- An operation whose `addEdge` endpoints are distinct. -/
def GraphOp.selfFree : GraphOp → Prop
  | .addEdge u v _ => u ≠ v
  | _ => True

instance : DecidablePred GraphOp.selfFree := by
  intro op
  cases op <;> simp [GraphOp.selfFree] <;> infer_instance

/-- claim C2, counterexample: a single `add_edge(0, 0, 1)` call on an empty
graph with threshold `0` makes node `0` its own neighbour. -/
theorem add_edge_self_loop :
    0 ∈ ((get_neighbors (applyOps 0 [.addEdge 0 0 1]) 0).map Prod.fst)
    ∧ ¬ NoSelfLoop (applyOps 0 [.addEdge 0 0 1]) := by
  have h : applyOps 0 [.addEdge 0 0 1] =
      ⟨0, [(0, [(0, 1)])]⟩ := by
    show add_edge ⟨0, []⟩ 0 0 1 = _
    unfold add_edge
    rw [if_neg (by norm_num)]
    rfl
  rw [h]
  constructor
  · simp [get_neighbors, List.lookup]
  · intro hns
    have := hns (0, [(0, 1)]) (by simp)
    simp at this

theorem mem_keys_dictSet (k a : Nat) (v : ℚ) (d : List (Nat × ℚ))
    (h : a ∈ (dictSet k v d).map Prod.fst) : a = k ∨ a ∈ d.map Prod.fst := by
  induction d with
  | nil => simpa [dictSet] using h
  | cons p rest ih =>
      obtain ⟨k0, v0⟩ := p
      unfold dictSet at h
      by_cases hk : k0 = k
      · rw [if_pos hk] at h
        simp at h
        rcases h with h | h
        · subst hk; exact Or.inr (by simp [h])
        · exact Or.inr (by simp [h])
      · rw [if_neg hk] at h
        simp at h
        rcases h with h | h
        · exact Or.inr (by simp [h])
        · rcases ih (by simpa using h) with h' | h'
          · exact Or.inl h'
          · exact Or.inr (by simp [h'])

theorem mem_keys_dictDel (k a : Nat) (d : List (Nat × ℚ))
    (h : a ∈ (dictDel k d).map Prod.fst) : a ∈ d.map Prod.fst := by
  induction d with
  | nil => simpa [dictDel] using h
  | cons p rest ih =>
      obtain ⟨k0, v0⟩ := p
      unfold dictDel at h
      by_cases hk : k0 = k
      · rw [if_pos hk] at h
        simp
        right
        simpa using h
      · rw [if_neg hk] at h
        simp at h ⊢
        rcases h with h | h
        · exact Or.inl h
        · exact Or.inr (by simpa using ih (by simpa using h))

theorem mem_setAdj (u v : Nat) (w : ℚ) (G : List (Nat × List (Nat × ℚ)))
    (p : Nat × List (Nat × ℚ)) (hp : p ∈ setAdj u v w G) :
    p ∈ G ∨ (p.1 = u ∧ ∃ q ∈ G, q.1 = u ∧ p.2 = dictSet v w q.2) := by
  induction G with
  | nil => simpa [setAdj] using hp
  | cons e rest ih =>
      obtain ⟨n, adj⟩ := e
      unfold setAdj at hp
      by_cases hn : n = u
      · rw [if_pos hn] at hp
        simp at hp
        rcases hp with hp | hp
        · subst hn
          exact Or.inr ⟨by simp [hp], (n, adj), by simp, rfl, by simp [hp]⟩
        · exact Or.inl (by simp [hp])
      · rw [if_neg hn] at hp
        simp at hp
        rcases hp with hp | hp
        · exact Or.inl (by simp [hp])
        · rcases ih hp with h' | ⟨h1, q, hq, hq1, hq2⟩
          · exact Or.inl (by simp [h'])
          · exact Or.inr ⟨h1, q, by simp [hq], hq1, hq2⟩

theorem mem_delFromAdj (nbr node : Nat) (G : List (Nat × List (Nat × ℚ)))
    (p : Nat × List (Nat × ℚ)) (hp : p ∈ delFromAdj nbr node G) :
    p ∈ G ∨ ∃ q ∈ G, p.1 = q.1 ∧ p.2 = dictDel node q.2 := by
  induction G with
  | nil => simpa [delFromAdj] using hp
  | cons e rest ih =>
      obtain ⟨n, adj⟩ := e
      unfold delFromAdj at hp
      by_cases hn : n = nbr
      · rw [if_pos hn] at hp
        simp at hp
        rcases hp with hp | hp
        · exact Or.inr ⟨(n, adj), by simp, by simp [hp], by simp [hp]⟩
        · exact Or.inl (by simp [hp])
      · rw [if_neg hn] at hp
        simp at hp
        rcases hp with hp | hp
        · exact Or.inl (by simp [hp])
        · rcases ih hp with h' | ⟨q, hq, hq1, hq2⟩
          · exact Or.inl (by simp [h'])
          · exact Or.inr ⟨q, by simp [hq], hq1, hq2⟩

theorem noSelfLoop_add_node (g : SimilarityGraph) (u : Nat)
    (h : NoSelfLoop g) : NoSelfLoop (add_node g u) := by
  unfold add_node
  split
  · exact h
  · intro p hp
    simp at hp
    rcases hp with hp | hp
    · exact h p hp
    · simp [hp]

theorem noSelfLoop_setAdj (u v : Nat) (w : ℚ) (g : List (Nat × List (Nat × ℚ)))
    (huv : u ≠ v) (h : ∀ p ∈ g, p.1 ∉ p.2.map Prod.fst) :
    ∀ p ∈ setAdj u v w g, p.1 ∉ p.2.map Prod.fst := by
  intro p hp
  rcases mem_setAdj u v w g p hp with h' | ⟨h1, q, hq, hq1, hq2⟩
  · exact h p h'
  · rw [hq2, h1]
    intro hmem
    rcases mem_keys_dictSet v u w q.2 hmem with h'' | h''
    · exact huv h''
    · exact h q hq (hq1 ▸ h'')

theorem noSelfLoop_add_edge (g : SimilarityGraph) (u v : Nat) (w : ℚ)
    (huv : u ≠ v) (h : NoSelfLoop g) : NoSelfLoop (add_edge g u v w) := by
  unfold add_edge
  split
  · exact h
  · intro p hp
    refine noSelfLoop_setAdj v u w _ (Ne.symm huv) ?_ p hp
    refine noSelfLoop_setAdj u v w _ huv ?_
    exact noSelfLoop_add_node (add_node g u) v (noSelfLoop_add_node g u h)

theorem noSelfLoop_delFold (node : Nat) (nbrs : List (Nat × ℚ))
    (G : List (Nat × List (Nat × ℚ))) (h : ∀ p ∈ G, p.1 ∉ p.2.map Prod.fst) :
    ∀ p ∈ nbrs.foldl (fun acc q => delFromAdj q.1 node acc) G,
      p.1 ∉ p.2.map Prod.fst := by
  induction nbrs generalizing G with
  | nil => exact h
  | cons q rest ih =>
      refine ih _ ?_
      intro p hp
      rcases mem_delFromAdj q.1 node G p hp with h' | ⟨r, hr, hr1, hr2⟩
      · exact h p h'
      · rw [hr2, hr1]
        intro hmem
        exact h r hr (mem_keys_dictDel node r.1 r.2 hmem)

theorem noSelfLoop_remove_node (g : SimilarityGraph) (u : Nat)
    (h : NoSelfLoop g) : NoSelfLoop (remove_node g u) := by
  unfold remove_node
  split
  · intro p hp
    simp only at hp
    have hsub : ∀ q ∈ graphDel u ((get_neighbors g u).foldl
        (fun acc q => delFromAdj q.1 u acc) g.graph), q ∈ (get_neighbors g u).foldl
        (fun acc q => delFromAdj q.1 u acc) g.graph := by
      intro q hq
      clear hp
      generalize (get_neighbors g u).foldl (fun acc q => delFromAdj q.1 u acc) g.graph
        = G at hq ⊢
      induction G with
      | nil => simpa [graphDel] using hq
      | cons e rest ih =>
          obtain ⟨n, adj⟩ := e
          unfold graphDel at hq
          by_cases hn : n = u
          · rw [if_pos hn] at hq
            simp [hq]
          · rw [if_neg hn] at hq
            simp at hq
            rcases hq with hq | hq
            · simp [hq]
            · simp [ih hq]
    exact noSelfLoop_delFold u (get_neighbors g u) g.graph h p (hsub p hp)
  · exact h

/-- claim C2, amended: after any sequence of `add_node`, `add_edge` and
`remove_node` operations in which `add_edge` is never called with
`node1 = node2`, no node is its own neighbour.  (The unrestricted claim is
false: see `add_edge_self_loop`.) -/
theorem noSelfLoop_applyOps (threshold : ℚ) (ops : List GraphOp)
    (h : ∀ op ∈ ops, op.selfFree) : NoSelfLoop (applyOps threshold ops) := by
  have base : NoSelfLoop (⟨threshold, []⟩ : SimilarityGraph) := by
    intro p hp
    simp at hp
  unfold applyOps
  generalize hg : (⟨threshold, []⟩ : SimilarityGraph) = g0
  rw [hg] at base
  clear hg
  induction ops generalizing g0 with
  | nil => simpa
  | cons op rest ih =>
      have hop := h op (by simp)
      have hrest : ∀ op ∈ rest, op.selfFree := fun o ho => h o (by simp [ho])
      rw [List.foldl_cons]
      refine ih hrest _ ?_
      cases op with
      | addNode u => exact noSelfLoop_add_node g0 u base
      | addEdge u v w => exact noSelfLoop_add_edge g0 u v w hop base
      | removeNode u => exact noSelfLoop_remove_node g0 u base

theorem noSelfLoop_applyOps_witness :
    (∀ op ∈ ([.addEdge 1 2 1, .addNode 3, .addEdge 2 3 1, .removeNode 1] :
        List GraphOp), op.selfFree)
    ∧ NoSelfLoop (applyOps 0 [.addEdge 1 2 1, .addNode 3, .addEdge 2 3 1, .removeNode 1]) :=
  ⟨by decide, noSelfLoop_applyOps 0 _ (by decide)⟩

/-! ## GreedySelection (greedy_selection.py) -/

/-- `GreedySelection._calculate_average_similarity`: mean edge weight from
`node` to every other member of the cluster, `get_edge_weight` returning 0
for missing edges, and 0 when there are no other members. -/
def calculate_average_similarity (node : Nat) (cluster : List Nat)
    (g : SimilarityGraph) : ℚ :=
  let others := cluster.filter (fun other => decide (other ≠ node))
  if others.length = 0 then 0
  else (others.foldl (fun s other => s + get_edge_weight g node other) 0) / others.length

/-- Stable insertion into a list sorted descending by the second component:
the element is placed before the first entry of value not above its own. -/
def insortDesc (x : Nat × ℚ) : List (Nat × ℚ) → List (Nat × ℚ)
  | [] => [x]
  | y :: rest => if x.2 < y.2 then y :: insortDesc x rest else x :: y :: rest

/-- Model of Python `sorted(items, key=lambda x: x[1], reverse=True)`: the
stable descending sort by value.  (A stable sort by a total preorder is
unique, so insertion sort coincides with the source's Timsort.) -/
def sortDesc : List (Nat × ℚ) → List (Nat × ℚ)
  | [] => []
  | x :: rest => insortDesc x (sortDesc rest)

/-- `GreedySelection.select_representatives`: the whole cluster when it has
at most `max_representatives` members, else the first `max_representatives`
nodes of the stable descending sort by average similarity.  (The Python
`avg_similarities` dict is keyed by cluster members; clusters are
duplicate-free, so it is modelled as the list of pairs in cluster order.) -/
def select_representatives (max_representatives : Nat) (cluster : List Nat)
    (g : SimilarityGraph) : List Nat :=
  if cluster = [] then []
  else if cluster.length ≤ max_representatives then cluster
  else
    let avg_similarities := cluster.map (fun n => (n, calculate_average_similarity n cluster g))
    ((sortDesc avg_similarities).take max_representatives).map Prod.fst

theorem insortDesc_perm (x : Nat × ℚ) (l : List (Nat × ℚ)) :
    (insortDesc x l).Perm (x :: l) := by
  induction l with
  | nil => rfl
  | cons y rest ih =>
      unfold insortDesc
      split
      · exact ((ih.cons y).trans (List.Perm.swap x y rest))
      · rfl

theorem sortDesc_perm (l : List (Nat × ℚ)) : (sortDesc l).Perm l := by
  induction l with
  | nil => rfl
  | cons x rest ih => exact (insortDesc_perm x (sortDesc rest)).trans (ih.cons x)

theorem insortDesc_pairwise (x : Nat × ℚ) (l : List (Nat × ℚ))
    (h : l.Pairwise (fun a b => b.2 ≤ a.2)) :
    (insortDesc x l).Pairwise (fun a b => b.2 ≤ a.2) := by
  induction l with
  | nil => simp [insortDesc]
  | cons y rest ih =>
      rcases List.pairwise_cons.mp h with ⟨hy, hrest⟩
      unfold insortDesc
      split
      · rename_i hlt
        refine List.pairwise_cons.mpr ⟨?_, ih hrest⟩
        intro b hb
        rcases List.mem_cons.mp ((insortDesc_perm x rest).mem_iff.mp hb) with hb | hb
        · exact hb ▸ le_of_lt hlt
        · exact hy b hb
      · rename_i hge
        push_neg at hge
        refine List.pairwise_cons.mpr ⟨?_, h⟩
        intro b hb
        rcases List.mem_cons.mp hb with hb | hb
        · exact hb ▸ hge
        · exact le_trans (hy b hb) hge

theorem sortDesc_pairwise (l : List (Nat × ℚ)) :
    (sortDesc l).Pairwise (fun a b => b.2 ≤ a.2) := by
  induction l with
  | nil => simp [sortDesc]
  | cons x rest ih => exact insortDesc_pairwise x (sortDesc rest) ih

theorem insortDesc_filter_value (x : Nat × ℚ) (l : List (Nat × ℚ)) (c : ℚ) :
    (insortDesc x l).filter (fun p => decide (p.2 = c))
      = (x :: l).filter (fun p => decide (p.2 = c)) := by
  induction l with
  | nil => rfl
  | cons y rest ih =>
      unfold insortDesc
      split
      · rename_i hlt
        have hyx : ¬ (y.2 = c ∧ x.2 = c) := by
          rintro ⟨h1, h2⟩
          rw [h1, h2] at hlt
          exact lt_irrefl c hlt
        by_cases hy : y.2 = c
        · have hx : ¬ x.2 = c := fun hx => hyx ⟨hy, hx⟩
          simp only [List.filter_cons]
          rw [ih]
          simp [hy, hx, List.filter_cons]
        · simp only [List.filter_cons]
          rw [ih]
          simp [hy, List.filter_cons]
      · rfl

theorem sortDesc_filter_value (l : List (Nat × ℚ)) (c : ℚ) :
    (sortDesc l).filter (fun p => decide (p.2 = c))
      = l.filter (fun p => decide (p.2 = c)) := by
  induction l with
  | nil => rfl
  | cons x rest ih =>
      unfold sortDesc
      rw [insortDesc_filter_value]
      simp only [List.filter_cons]
      rw [ih]

theorem filter_map_fst (f : Nat → ℚ) (c : ℚ) (l : List (Nat × ℚ))
    (h : ∀ p ∈ l, p.2 = f p.1) :
    (l.map Prod.fst).filter (fun n => decide (f n = c))
      = (l.filter (fun p => decide (p.2 = c))).map Prod.fst := by
  induction l with
  | nil => rfl
  | cons p rest ih =>
      have hp := h p (by simp)
      have hrest : ∀ q ∈ rest, q.2 = f q.1 := fun q hq => h q (by simp [hq])
      simp only [List.map_cons, List.filter_cons, hp]
      by_cases hc : f p.1 = c
      · simp [hc, ih hrest]
      · simp [hc, ih hrest]

/-- claim C8: for a non-empty duplicate-free cluster,
`select_representatives` returns exactly `min |cluster| K` members of the
cluster; the cluster verbatim when `|cluster| ≤ K`; otherwise a top-`K`
selection by average similarity (every selected node's average is at least
every rejected node's), with ties broken stably in the cluster's input
order (for each value `c`, the selected nodes of average `c` are a prefix
of the cluster members of average `c`, in cluster order). -/
theorem select_representatives_spec (K : Nat) (cluster : List Nat)
    (g : SimilarityGraph) (hne : cluster ≠ []) (hnd : cluster.Nodup) :
    (select_representatives K cluster g).length = min cluster.length K
    ∧ (∀ x ∈ select_representatives K cluster g, x ∈ cluster)
    ∧ (cluster.length ≤ K → select_representatives K cluster g = cluster)
    ∧ (∀ x ∈ select_representatives K cluster g, ∀ y ∈ cluster,
        y ∉ select_representatives K cluster g →
        calculate_average_similarity y cluster g ≤ calculate_average_similarity x cluster g)
    ∧ (∀ c : ℚ, (select_representatives K cluster g).filter
          (fun n => decide (calculate_average_similarity n cluster g = c))
        <+: cluster.filter
          (fun n => decide (calculate_average_similarity n cluster g = c))) := by
  by_cases hsmall : cluster.length ≤ K
  · have hres : select_representatives K cluster g = cluster := by
      unfold select_representatives
      rw [if_neg hne, if_pos hsmall]
    refine ⟨by rw [hres, min_eq_left hsmall], by rw [hres]; exact fun x hx => hx,
      fun _ => hres, ?_, ?_⟩
    · intro x hx y hy hyn
      rw [hres] at hyn
      exact absurd hy hyn
    · intro c
      rw [hres]
  · set avg := fun n => calculate_average_similarity n cluster g with havg
    set al := cluster.map (fun n => (n, avg n)) with hal
    have hres : select_representatives K cluster g
        = ((sortDesc al).take K).map Prod.fst := by
      unfold select_representatives
      rw [if_neg hne, if_neg hsmall]
    have hperm : (sortDesc al).Perm al := sortDesc_perm al
    have hlen : (sortDesc al).length = cluster.length := by
      rw [hperm.length_eq, hal, List.length_map]
    have hsnd : ∀ p ∈ sortDesc al, p.2 = avg p.1 := by
      intro p hp
      have : p ∈ al := hperm.mem_iff.mp hp
      rw [hal] at this
      rcases List.mem_map.mp this with ⟨n, _, rfl⟩
      rfl
    have hKle : K ≤ cluster.length := le_of_not_le hsmall
    refine ⟨?_, ?_, fun h => absurd h hsmall, ?_, ?_⟩
    · rw [hres, List.length_map, List.length_take, hlen]
      omega
    · intro x hx
      rw [hres] at hx
      rcases List.mem_map.mp hx with ⟨p, hp, rfl⟩
      have : p ∈ al := hperm.mem_iff.mp (List.mem_of_mem_take hp)
      rw [hal] at this
      rcases List.mem_map.mp this with ⟨n, hn, rfl⟩
      exact hn
    · intro x hx y hy hyn
      rw [hres] at hx hyn
      rcases List.mem_map.mp hx with ⟨p, hp, rfl⟩
      have hpval : p.2 = avg p.1 := hsnd p (List.mem_of_mem_take hp)
      have hyal : (y, avg y) ∈ sortDesc al := by
        refine hperm.mem_iff.mpr ?_
        rw [hal]
        exact List.mem_map.mpr ⟨y, hy, rfl⟩
      have hysplit : (y, avg y) ∈ (sortDesc al).take K
          ∨ (y, avg y) ∈ (sortDesc al).drop K := by
        rcases List.mem_append.mp
          ((List.take_append_drop K (sortDesc al)) ▸ hyal) with h | h
        · exact Or.inl h
        · exact Or.inr h
      rcases hysplit with hyt | hyd
      · exact absurd (List.mem_map.mpr ⟨(y, avg y), hyt, rfl⟩) hyn
      · have hpw := sortDesc_pairwise al
        rw [← List.take_append_drop K (sortDesc al)] at hpw
        have := (List.pairwise_append.mp hpw).2.2 p hp (y, avg y) hyd
        simpa [hpval] using this
    · intro c
      have h1 : (select_representatives K cluster g).filter
          (fun n => decide (avg n = c))
          = (((sortDesc al).take K).filter (fun p => decide (p.2 = c))).map Prod.fst := by
        rw [hres]
        exact filter_map_fst avg c ((sortDesc al).take K)
          (fun p hp => hsnd p (List.mem_of_mem_take hp))
      have h2 : cluster.filter (fun n => decide (avg n = c))
          = (al.filter (fun p => decide (p.2 = c))).map Prod.fst := by
        have : cluster = al.map Prod.fst := by
          rw [hal, List.map_map]
          exact (List.map_id cluster).symm
        rw [this]
        refine filter_map_fst avg c al ?_
        intro p hp
        rw [hal] at hp
        rcases List.mem_map.mp hp with ⟨n, _, rfl⟩
        rfl
      rw [h1, h2, ← sortDesc_filter_value al c]
      exact ((List.take_prefix K (sortDesc al)).filter _).map Prod.fst

theorem select_representatives_spec_witness :
    (([1, 2, 3] : List Nat) ≠ [] ∧ ([1, 2, 3] : List Nat).Nodup)
    ∧ ((select_representatives 2 [1, 2, 3] ⟨0, []⟩).length = min ([1, 2, 3] : List Nat).length 2
        ∧ (∀ x ∈ select_representatives 2 [1, 2, 3] ⟨0, []⟩, x ∈ ([1, 2, 3] : List Nat))) := by
  have h := select_representatives_spec 2 [1, 2, 3] ⟨0, []⟩ (by decide) (by decide)
  exact ⟨⟨by decide, by decide⟩, h.1, h.2.1⟩

/-! ## Clustering (clustering.py)

`find_clusters` (BFS) and `find_clusters_dfs` (DFS) enumerate the graph's
nodes in iteration order, flooding each unvisited node and keeping
components of size at least `min_cluster_size`.  The Python `visited` set
is shared across components; it is modelled as a list threaded through the
loop.  The BFS queue loop terminates on a lexicographic measure (unvisited
node count, queue length); the DFS recursion is modelled with a fuel
parameter that provably never runs out when started at
`universeNodes g |>.length + 1`. -/

/-- Keys of the adjacency dict of `node`, the iteration order of Python's
`for neighbor in graph.get_neighbors(node)`. -/
def neighborsKeys (g : SimilarityGraph) (node : Nat) : List Nat :=
  (get_neighbors g node).map Prod.fst

/-- All node ids occurring anywhere in the adjacency structure. -/
def universeNodes (g : SimilarityGraph) : List Nat :=
  g.graph.map Prod.fst ++ (g.graph.map (fun p => p.2.map Prod.fst)).join

/-- Number of universe nodes not yet visited — the termination measure of
both traversals. -/
def unvisN (g : SimilarityGraph) (visited : List Nat) : Nat :=
  ((universeNodes g).filter (fun a => decide (a ∉ visited))).length

theorem lookup_eq_none_of_not_mem_keys {β : Type} (u : Nat)
    (l : List (Nat × β)) (h : u ∉ l.map Prod.fst) : l.lookup u = none := by
  induction l with
  | nil => rfl
  | cons p rest ih =>
      obtain ⟨k, b⟩ := p
      have hne : u ≠ k := by
        intro hc
        exact h (by simp [hc])
      have hrest : u ∉ rest.map Prod.fst := by
        intro hc
        exact h (by simp [hc])
      rw [List.lookup]
      have hbeq : (u == k) = false := by simp [hne]
      rw [hbeq]
      exact ih hrest

theorem lookup_mem {β : Type} (u : Nat) (l : List (Nat × β)) (b : β)
    (h : l.lookup u = some b) : (u, b) ∈ l := by
  induction l with
  | nil => simp [List.lookup] at h
  | cons p rest ih =>
      obtain ⟨k, b0⟩ := p
      rw [List.lookup] at h
      by_cases hk : u = k
      · subst hk
        simp at h
        simp [h]
      · have hbeq : (u == k) = false := by simp [hk]
        rw [hbeq] at h
        simp [ih h]

theorem neighborsKeys_eq_nil_of_not_mem (g : SimilarityGraph) (node : Nat)
    (h : node ∉ g.graph.map Prod.fst) : neighborsKeys g node = [] := by
  unfold neighborsKeys get_neighbors
  rw [lookup_eq_none_of_not_mem_keys node g.graph h]
  rfl

theorem mem_universe_of_mem_neighborsKeys (g : SimilarityGraph) (u v : Nat)
    (h : v ∈ neighborsKeys g u) : v ∈ universeNodes g := by
  unfold neighborsKeys get_neighbors at h
  unfold universeNodes
  cases hl : g.graph.lookup u with
  | none => rw [hl] at h; simp at h
  | some adj =>
      rw [hl] at h
      simp at h
      refine List.mem_append.mpr (Or.inr ?_)
      rw [List.mem_join]
      refine ⟨adj.map Prod.fst, ?_, by simpa using h⟩
      exact List.mem_map.mpr ⟨(u, adj), lookup_mem u g.graph adj hl, rfl⟩

theorem filter_not_mem_append_eq (us visited : List Nat) (node : Nat)
    (h : node ∉ us) :
    us.filter (fun a => decide (a ∉ visited ++ [node]))
      = us.filter (fun a => decide (a ∉ visited)) := by
  apply List.filter_congr
  intro a ha
  have hne : a ≠ node := fun hc => h (hc ▸ ha)
  simp [hne]

theorem filter_visited_le (us visited : List Nat) (node : Nat) :
    (us.filter (fun a => decide (a ∉ visited ++ [node]))).length
      ≤ (us.filter (fun a => decide (a ∉ visited))).length := by
  refine List.Sublist.length_le (List.monotone_filter_right us ?_)
  intro a ha
  simp at ha ⊢
  exact ha.1

theorem filter_visited_lt (us visited : List Nat) (node : Nat)
    (hmem : node ∈ us) (hnv : node ∉ visited) :
    (us.filter (fun a => decide (a ∉ visited ++ [node]))).length
      < (us.filter (fun a => decide (a ∉ visited))).length := by
  obtain ⟨s, t, rfl⟩ := List.append_of_mem hmem
  rw [List.filter_append, List.filter_append, List.filter_cons, List.filter_cons]
  have h1 : (decide (node ∉ visited ++ [node])) = false := by simp
  have h2 : (decide (node ∉ visited)) = true := by simpa using hnv
  rw [h1, h2]
  have hs := filter_visited_le s visited node
  have ht := filter_visited_le t visited node
  simp only [Bool.false_eq_true, if_false, if_true, List.length_append,
    List.length_cons]
  omega

/-- `Clustering._bfs` together with the enclosing `while queue:` loop:
pop the head; skip it when visited; otherwise mark it visited, append it
to the cluster and enqueue its unvisited neighbours. -/
def bfsAux (g : SimilarityGraph) (queue visited cluster : List Nat) :
    List Nat × List Nat :=
  match queue with
  | [] => (visited, cluster)
  | node :: rest =>
      if node ∈ visited then bfsAux g rest visited cluster
      else
        bfsAux g
          (rest ++ (neighborsKeys g node).filter (fun n => decide (n ∉ visited ++ [node])))
          (visited ++ [node]) (cluster ++ [node])
termination_by ((((universeNodes g).filter (fun a => decide (a ∉ visited))).length,
  queue.length) : Nat × Nat)
decreasing_by
· exact Prod.Lex.right _ (by simp)
· rename_i hnv
  by_cases hu : node ∈ universeNodes g
  · exact Prod.Lex.left _ _ (filter_visited_lt (universeNodes g) visited node hu hnv)
  · have hkeys : node ∉ g.graph.map Prod.fst := by
      intro hc
      exact hu (List.mem_append.mpr (Or.inl hc))
    rw [filter_not_mem_append_eq (universeNodes g) visited node hu,
      neighborsKeys_eq_nil_of_not_mem g node hkeys]
    exact Prod.Lex.right _ (by simp)

/-- The node loop of `Clustering.find_clusters`, threading the shared
`visited` set and the accumulated cluster list. -/
def find_clusters_aux (g : SimilarityGraph) (min_cluster_size : Nat) :
    List Nat → List Nat → List (List Nat) → List (List Nat)
  | [], _, clusters => clusters
  | node :: nodes, visited, clusters =>
      if node ∈ visited then find_clusters_aux g min_cluster_size nodes visited clusters
      else
        let r := bfsAux g [node] visited []
        if min_cluster_size ≤ r.2.length then
          find_clusters_aux g min_cluster_size nodes r.1 (clusters ++ [r.2])
        else
          find_clusters_aux g min_cluster_size nodes r.1 clusters

/-- `Clustering.find_clusters` (the BFS variant). -/
def find_clusters (g : SimilarityGraph) (min_cluster_size : Nat) : List (List Nat) :=
  find_clusters_aux g min_cluster_size (get_nodes g) [] []

mutual

/-- `Clustering._dfs`: return when the node is visited, else mark it and
recurse into its neighbours.  The extra fuel argument only bounds the
recursion depth; `dfs_fuel` below always suffices. -/
def dfsAux (g : SimilarityGraph) : Nat → Nat → List Nat → List Nat →
    List Nat × List Nat
  | 0, _, visited, cluster => (visited, cluster)
  | fuel + 1, node, visited, cluster =>
      if node ∈ visited then (visited, cluster)
      else dfsFold g fuel (neighborsKeys g node) (visited ++ [node]) (cluster ++ [node])

/-- The `for neighbor in graph.get_neighbors(node)` loop of `_dfs`:
recurse into each not-yet-visited neighbour in order. -/
def dfsFold (g : SimilarityGraph) (fuel : Nat) :
    List Nat → List Nat → List Nat → List Nat × List Nat
  | [], visited, cluster => (visited, cluster)
  | n :: rest, visited, cluster =>
      if n ∈ visited then dfsFold g fuel rest visited cluster
      else
        let r := dfsAux g fuel n visited cluster
        dfsFold g fuel rest r.1 r.2

end

/-- Fuel bound sufficient for every call of `dfsAux`. -/
def dfs_fuel (g : SimilarityGraph) : Nat := (universeNodes g).length + 1

/-- The node loop of `Clustering.find_clusters_dfs`. -/
def find_clusters_dfs_aux (g : SimilarityGraph) (min_cluster_size : Nat) :
    List Nat → List Nat → List (List Nat) → List (List Nat)
  | [], _, clusters => clusters
  | node :: nodes, visited, clusters =>
      if node ∈ visited then find_clusters_dfs_aux g min_cluster_size nodes visited clusters
      else
        let r := dfsAux g (dfs_fuel g) node visited []
        if min_cluster_size ≤ r.2.length then
          find_clusters_dfs_aux g min_cluster_size nodes r.1 (clusters ++ [r.2])
        else
          find_clusters_dfs_aux g min_cluster_size nodes r.1 clusters

/-- `Clustering.find_clusters_dfs` (the DFS variant). -/
def find_clusters_dfs (g : SimilarityGraph) (min_cluster_size : Nat) :
    List (List Nat) :=
  find_clusters_dfs_aux g min_cluster_size (get_nodes g) [] []

/-- Reachability from `s` through edges of `g` along nodes all outside the
initial visited set `V`: exactly the set a flood started at `s` collects. -/
inductive ReachA (g : SimilarityGraph) (V : List Nat) (s : Nat) : Nat → Prop
  | base : s ∉ V → ReachA g V s s
  | step {u v : Nat} : ReachA g V s u → v ∈ neighborsKeys g u → v ∉ V →
      ReachA g V s v

theorem ReachA.not_mem {g : SimilarityGraph} {V : List Nat} {s x : Nat}
    (h : ReachA g V s x) : x ∉ V := by
  induction h with
  | base hs => exact hs
  | step hreach hmem hv ih => exact hv

theorem ReachA.mono {g : SimilarityGraph} {V W : List Nat} {s x : Nat}
    (hVW : ∀ a ∈ V, a ∈ W) (h : ReachA g W s x) : ReachA g V s x := by
  induction h with
  | base hs => exact ReachA.base (fun hc => hs (hVW _ hc))
  | step hreach hmem hv ih => exact ReachA.step ih hmem (fun hc => hv (hVW _ hc))

theorem ReachA.trans {g : SimilarityGraph} {V : List Nat} {s u x : Nat}
    (h1 : ReachA g V s u) (h2 : ReachA g V u x) : ReachA g V s x := by
  induction h2 with
  | base _ => exact h1
  | step hreach hmem hv ih => exact ReachA.step ih hmem hv

theorem ReachA.congr_visited {g : SimilarityGraph} {V W : List Nat} {s x : Nat}
    (hVW : ∀ a, a ∈ V ↔ a ∈ W) : ReachA g V s x ↔ ReachA g W s x :=
  ⟨fun h => h.mono (fun a ha => (hVW a).mpr ha),
   fun h => h.mono (fun a ha => (hVW a).mp ha)⟩

theorem bfsAux_append (g : SimilarityGraph) :
    ∀ queue visited cluster, ∃ Δ,
      (bfsAux g queue visited cluster).1 = visited ++ Δ
      ∧ (bfsAux g queue visited cluster).2 = cluster ++ Δ
      ∧ Δ.Nodup ∧ ∀ x ∈ Δ, x ∉ visited := by
  intro queue visited cluster
  induction queue, visited, cluster using bfsAux.induct g with
  | case1 visited cluster =>
      exact ⟨[], by simp [bfsAux], by simp [bfsAux], List.nodup_nil, by simp⟩
  | case2 visited cluster node rest hvis ih =>
      obtain ⟨Δ, h1, h2, h3, h4⟩ := ih
      exact ⟨Δ, by rw [bfsAux, if_pos hvis]; exact h1,
        by rw [bfsAux, if_pos hvis]; exact h2, h3, h4⟩
  | case3 visited cluster node rest hvis ih =>
      obtain ⟨Δ, h1, h2, h3, h4⟩ := ih
      refine ⟨node :: Δ, ?_, ?_, ?_, ?_⟩
      · rw [bfsAux, if_neg hvis, h1, List.append_assoc]
        rfl
      · rw [bfsAux, if_neg hvis, h2, List.append_assoc]
        rfl
      · refine List.nodup_cons.mpr ⟨?_, h3⟩
        intro hc
        exact h4 node hc (by simp)
      · intro x hx
        rcases List.mem_cons.mp hx with hx | hx
        · exact hx ▸ hvis
        · intro hc
          exact h4 x hx (by simp [hc])

theorem bfsAux_spec (g : SimilarityGraph) (s : Nat) (V : List Nat) :
    ∀ queue visited cluster,
      (∀ a ∈ V, a ∈ visited) →
      (∀ q ∈ queue, ReachA g V s q) →
      (∀ u ∈ visited, u ∉ V → ∀ v ∈ neighborsKeys g u, v ∈ visited ∨ v ∈ queue) →
      (s ∈ visited ∨ s ∈ queue) →
      (∀ x ∈ (bfsAux g queue visited cluster).1, x ∈ visited ∨ ReachA g V s x)
      ∧ (∀ x, ReachA g V s x → x ∈ (bfsAux g queue visited cluster).1) := by
  intro queue visited cluster
  induction queue, visited, cluster using bfsAux.induct g with
  | case1 visited cluster =>
      intro hV hq hfront hs
      constructor
      · intro x hx
        exact Or.inl (by simpa [bfsAux] using hx)
      · intro x hx
        induction hx with
        | base hsV =>
            rcases hs with h | h
            · simpa [bfsAux]
            · simp at h
        | step hreach hmem hv ih =>
            have hu := ReachA.not_mem hreach
            rcases hfront _ (by simpa [bfsAux] using ih) hu _ hmem with h | h
            · simpa [bfsAux]
            · simp at h
  | case2 visited cluster node rest hvis ih =>
      intro hV hq hfront hs
      have hq' : ∀ q ∈ rest, ReachA g V s q := fun q hq0 => hq q (by simp [hq0])
      have hfront' : ∀ u ∈ visited, u ∉ V →
          ∀ v ∈ neighborsKeys g u, v ∈ visited ∨ v ∈ rest := by
        intro u hu hunv v hv
        rcases hfront u hu hunv v hv with h | h
        · exact Or.inl h
        · rcases List.mem_cons.mp h with h | h
          · exact Or.inl (h ▸ hvis)
          · exact Or.inr h
      have hs' : s ∈ visited ∨ s ∈ rest := by
        rcases hs with h | h
        · exact Or.inl h
        · rcases List.mem_cons.mp h with h | h
          · exact Or.inl (h ▸ hvis)
          · exact Or.inr h
      have := ih hV hq' hfront' hs'
      constructor
      · intro x hx
        rw [bfsAux, if_pos hvis] at hx
        exact this.1 x hx
      · intro x hx
        rw [bfsAux, if_pos hvis]
        exact this.2 x hx
  | case3 visited cluster node rest hvis ih =>
      intro hV hq hfront hs
      have hnodeR : ReachA g V s node := hq node (by simp)
      have hV' : ∀ a ∈ V, a ∈ visited ++ [node] := fun a ha => by
        simp [hV a ha]
      have hq' : ∀ q ∈ rest ++ (neighborsKeys g node).filter
          (fun n => decide (n ∉ visited ++ [node])), ReachA g V s q := by
        intro q hq0
        rcases List.mem_append.mp hq0 with h | h
        · exact hq q (by simp [h])
        · rcases List.mem_filter.mp h with ⟨hmem, hflt⟩
          simp at hflt
          have hqnV : q ∉ V := fun hc => hflt.1 (hV q hc)
          exact ReachA.step hnodeR hmem hqnV
      have hfront' : ∀ u ∈ visited ++ [node], u ∉ V →
          ∀ v ∈ neighborsKeys g u, v ∈ visited ++ [node] ∨
            v ∈ rest ++ (neighborsKeys g node).filter
              (fun n => decide (n ∉ visited ++ [node])) := by
        intro u hu hunv v hv
        rcases List.mem_append.mp hu with hu | hu
        · rcases hfront u hu hunv v hv with h | h
          · exact Or.inl (by simp [h])
          · rcases List.mem_cons.mp h with h | h
            · exact Or.inl (by simp [h])
            · exact Or.inr (by simp [h])
        · simp at hu
          subst hu
          by_cases hvv : v ∈ visited ++ [u]
          · exact Or.inl hvv
          · refine Or.inr (List.mem_append.mpr (Or.inr ?_))
            exact List.mem_filter.mpr ⟨hv, by simpa using hvv⟩
      have hs' : s ∈ visited ++ [node] ∨ s ∈ rest ++ (neighborsKeys g node).filter
          (fun n => decide (n ∉ visited ++ [node])) := by
        rcases hs with h | h
        · exact Or.inl (by simp [h])
        · rcases List.mem_cons.mp h with h | h
          · exact Or.inl (by simp [h])
          · exact Or.inr (by simp [h])
      have := ih hV' hq' hfront' hs'
      constructor
      · intro x hx
        rw [bfsAux, if_neg hvis] at hx
        rcases this.1 x hx with h | h
        · rcases List.mem_append.mp h with h | h
          · exact Or.inl h
          · simp at h
            exact Or.inr (h ▸ hnodeR)
        · exact Or.inr h
      · intro x hx
        rw [bfsAux, if_neg hvis]
        exact this.2 x hx

theorem bfs_component (g : SimilarityGraph) (s : Nat) (V : List Nat)
    (hs : s ∉ V) :
    ∃ Δ, (bfsAux g [s] V []).1 = V ++ Δ ∧ (bfsAux g [s] V []).2 = Δ
      ∧ Δ.Nodup ∧ (∀ x, x ∈ Δ ↔ ReachA g V s x) := by
  obtain ⟨Δ, h1, h2, h3, h4⟩ := bfsAux_append g [s] V []
  have hspec := bfsAux_spec g s V [s] V []
    (fun a ha => ha)
    (by
      intro q hq
      simp at hq
      subst hq
      exact ReachA.base hs)
    (fun u hu hunv => absurd hu hunv)
    (Or.inr (by simp))
  refine ⟨Δ, h1, by simpa using h2, h3, ?_⟩
  intro x
  constructor
  · intro hx
    rcases hspec.1 x (by rw [h1]; simp [hx]) with h | h
    · exact absurd h (h4 x hx)
    · exact h
  · intro hx
    have := hspec.2 x hx
    rw [h1] at this
    rcases List.mem_append.mp this with h | h
    · exact absurd h hx.not_mem
    · exact h

theorem ReachA.source_not_mem {g : SimilarityGraph} {V : List Nat} {s x : Nat}
    (h : ReachA g V s x) : s ∉ V := by
  induction h with
  | base hs => exact hs
  | step hreach hmem hv ih => exact ih

theorem one_le_unvisN (g : SimilarityGraph) (visited : List Nat) (s : Nat)
    (hsu : s ∈ universeNodes g) (hsv : s ∉ visited) : 1 ≤ unvisN g visited := by
  have : s ∈ (universeNodes g).filter (fun a => decide (a ∉ visited)) :=
    List.mem_filter.mpr ⟨hsu, by simpa using hsv⟩
  have hlen := List.length_pos.mpr (List.ne_nil_of_mem this)
  unfold unvisN
  omega

theorem unvisN_append_le (g : SimilarityGraph) (visited Δ : List Nat) :
    unvisN g (visited ++ Δ) ≤ unvisN g visited := by
  refine List.Sublist.length_le (List.monotone_filter_right _ ?_)
  intro a ha
  simp at ha ⊢
  exact ha.1

theorem dfs_spec (g : SimilarityGraph) :
    ∀ fuel : Nat,
      (∀ s visited cluster, unvisN g visited ≤ fuel →
        (s ∈ universeNodes g ∨ s ∈ visited) →
        ∃ Δ, dfsAux g fuel s visited cluster = (visited ++ Δ, cluster ++ Δ)
          ∧ Δ.Nodup ∧ (∀ x ∈ Δ, x ∉ visited)
          ∧ s ∈ visited ++ Δ
          ∧ (∀ x ∈ Δ, ReachA g visited s x)
          ∧ (∀ u ∈ Δ, ∀ v ∈ neighborsKeys g u, v ∈ visited ++ Δ))
      ∧ (∀ nbrs visited cluster, unvisN g visited ≤ fuel →
        (∀ n ∈ nbrs, n ∈ universeNodes g) →
        ∃ Δ, dfsFold g fuel nbrs visited cluster = (visited ++ Δ, cluster ++ Δ)
          ∧ Δ.Nodup ∧ (∀ x ∈ Δ, x ∉ visited)
          ∧ (∀ n ∈ nbrs, n ∈ visited ++ Δ)
          ∧ (∀ x ∈ Δ, ∃ n ∈ nbrs, ReachA g visited n x)
          ∧ (∀ u ∈ Δ, ∀ v ∈ neighborsKeys g u, v ∈ visited ++ Δ)) := by
  have trivAux : ∀ fuel s visited cluster,
      dfsAux g fuel s visited cluster = (visited, cluster) → s ∈ visited →
      ∃ Δ, dfsAux g fuel s visited cluster = (visited ++ Δ, cluster ++ Δ)
        ∧ Δ.Nodup ∧ (∀ x ∈ Δ, x ∉ visited)
        ∧ s ∈ visited ++ Δ
        ∧ (∀ x ∈ Δ, ReachA g visited s x)
        ∧ (∀ u ∈ Δ, ∀ v ∈ neighborsKeys g u, v ∈ visited ++ Δ) := by
    intro fuel s visited cluster heq hs
    exact ⟨[], by simpa using heq, List.nodup_nil, by simp, by simp [hs],
      by simp, by simp⟩
  intro fuel
  induction fuel with
  | zero =>
      constructor
      · intro s visited cluster h0 hsu
        have hs : s ∈ visited := by
          by_cases hv : s ∈ visited
          · exact hv
          · rcases hsu with h | h
            · exact absurd h0 (by have := one_le_unvisN g visited s h hv; omega)
            · exact h
        exact trivAux 0 s visited cluster (by rw [dfsAux]) hs
      · intro nbrs
        induction nbrs with
        | nil =>
            intro visited cluster _ _
            exact ⟨[], by simp [dfsFold], List.nodup_nil, by simp, by simp,
              by simp, by simp⟩
        | cons n rest ih =>
            intro visited cluster h0 hnu
            have hn : n ∈ visited := by
              by_cases hv : n ∈ visited
              · exact hv
              · exact absurd h0
                  (by have := one_le_unvisN g visited n (hnu n (by simp)) hv; omega)
            obtain ⟨Δ, h1, h2, h3, h4, h5, h6⟩ :=
              ih visited cluster h0 (fun m hm => hnu m (by simp [hm]))
            refine ⟨Δ, ?_, h2, h3, ?_, ?_, h6⟩
            · rw [dfsFold, if_pos hn]
              exact h1
            · intro m hm
              rcases List.mem_cons.mp hm with hm | hm
              · simp [hm ▸ hn]
              · exact h4 m hm
            · intro x hx
              obtain ⟨m, hm1, hm2⟩ := h5 x hx
              exact ⟨m, by simp [hm1], hm2⟩
  | succ f ihf =>
      have hauxS : ∀ s visited cluster, unvisN g visited ≤ f + 1 →
          (s ∈ universeNodes g ∨ s ∈ visited) →
          ∃ Δ, dfsAux g (f + 1) s visited cluster = (visited ++ Δ, cluster ++ Δ)
            ∧ Δ.Nodup ∧ (∀ x ∈ Δ, x ∉ visited)
            ∧ s ∈ visited ++ Δ
            ∧ (∀ x ∈ Δ, ReachA g visited s x)
            ∧ (∀ u ∈ Δ, ∀ v ∈ neighborsKeys g u, v ∈ visited ++ Δ) := by
        intro s visited cluster h0 hsu
        by_cases hs : s ∈ visited
        · exact trivAux (f + 1) s visited cluster (by rw [dfsAux, if_pos hs]) hs
        · have hsU : s ∈ universeNodes g := by
            rcases hsu with h | h
            · exact h
            · exact absurd h hs
          have hfuel : unvisN g (visited ++ [s]) ≤ f := by
            have := filter_visited_lt (universeNodes g) visited s hsU hs
            unfold unvisN at h0 ⊢
            omega
          have hnbrs : ∀ n ∈ neighborsKeys g s, n ∈ universeNodes g :=
            fun n hn => mem_universe_of_mem_neighborsKeys g s n hn
          obtain ⟨Δf, h1, h2, h3, h4, h5, h6⟩ :=
            ihf.2 (neighborsKeys g s) (visited ++ [s]) (cluster ++ [s]) hfuel hnbrs
          have hshape : ∀ l : List Nat, (l ++ [s]) ++ Δf = l ++ (s :: Δf) := by
            intro l
            rw [List.append_assoc]
            rfl
          refine ⟨s :: Δf, ?_, ?_, ?_, by simp, ?_, ?_⟩
          · rw [dfsAux, if_neg hs, h1, hshape, hshape]
          · refine List.nodup_cons.mpr ⟨?_, h2⟩
            intro hc
            exact h3 s hc (by simp)
          · intro x hx
            rcases List.mem_cons.mp hx with hx | hx
            · exact hx ▸ hs
            · intro hc
              exact h3 x hx (by simp [hc])
          · intro x hx
            rcases List.mem_cons.mp hx with hx | hx
            · subst hx
              exact ReachA.base hs
            · obtain ⟨n, hn1, hn2⟩ := h5 x hx
              have hnv : n ∉ visited := by
                have := hn2.source_not_mem
                intro hc
                exact this (by simp [hc])
              have hx2 : ReachA g visited n x :=
                hn2.mono (fun a ha => by simp [ha])
              exact (ReachA.step (ReachA.base hs) hn1 hnv).trans hx2
          · intro u hu v hv
            rcases List.mem_cons.mp hu with hu | hu
            · have := h4 v (hu ▸ hv)
              rw [hshape] at this
              exact this
            · have := h6 u hu v hv
              rw [hshape] at this
              exact this
      refine ⟨hauxS, ?_⟩
      intro nbrs
      induction nbrs with
      | nil =>
          intro visited cluster _ _
          exact ⟨[], by simp [dfsFold], List.nodup_nil, by simp, by simp,
            by simp, by simp⟩
      | cons n rest ih =>
          intro visited cluster h0 hnu
          by_cases hn : n ∈ visited
          · obtain ⟨Δ, h1, h2, h3, h4, h5, h6⟩ :=
              ih visited cluster h0 (fun m hm => hnu m (by simp [hm]))
            refine ⟨Δ, ?_, h2, h3, ?_, ?_, h6⟩
            · rw [dfsFold, if_pos hn]
              exact h1
            · intro m hm
              rcases List.mem_cons.mp hm with hm | hm
              · simp [hm ▸ hn]
              · exact h4 m hm
            · intro x hx
              obtain ⟨m, hm1, hm2⟩ := h5 x hx
              exact ⟨m, by simp [hm1], hm2⟩
          · obtain ⟨Δa, ha1, ha2, ha3, ha4, ha5, ha6⟩ :=
              hauxS n visited cluster h0 (Or.inl (hnu n (by simp)))
            have hfuel2 : unvisN g (visited ++ Δa) ≤ f + 1 :=
              le_trans (unvisN_append_le g visited Δa) h0
            obtain ⟨Δr, hr1, hr2, hr3, hr4, hr5, hr6⟩ :=
              ih (visited ++ Δa) (cluster ++ Δa) hfuel2
                (fun m hm => hnu m (by simp [hm]))
            have hshape : ∀ l : List Nat, (l ++ Δa) ++ Δr = l ++ (Δa ++ Δr) :=
              fun l => List.append_assoc l Δa Δr
            refine ⟨Δa ++ Δr, ?_, ?_, ?_, ?_, ?_, ?_⟩
            · rw [dfsFold, if_neg hn]
              simp only [ha1]
              rw [hr1, hshape, hshape]
            · refine List.nodup_append.mpr ⟨ha2, hr2, ?_⟩
              intro x hxa hxr
              exact hr3 x hxr (by simp [hxa])
            · intro x hx
              rcases List.mem_append.mp hx with hx | hx
              · exact ha3 x hx
              · intro hc
                exact hr3 x hx (by simp [hc])
            · intro m hm
              rcases List.mem_cons.mp hm with hm | hm
              · subst hm
                rcases List.mem_append.mp ha4 with h | h
                · exact List.mem_append.mpr (Or.inl h)
                · exact List.mem_append.mpr (Or.inr (List.mem_append.mpr (Or.inl h)))
              · have := hr4 m hm
                rw [hshape] at this
                exact this
            · intro x hx
              rcases List.mem_append.mp hx with hx | hx
              · exact ⟨n, by simp, ha5 x hx⟩
              · obtain ⟨m, hm1, hm2⟩ := hr5 x hx
                exact ⟨m, by simp [hm1], hm2.mono (fun a ha => by simp [ha])⟩
            · intro u hu v hv
              rcases List.mem_append.mp hu with hu | hu
              · have := ha6 u hu v hv
                rcases List.mem_append.mp this with h | h
                · exact List.mem_append.mpr (Or.inl h)
                · exact List.mem_append.mpr (Or.inr (List.mem_append.mpr (Or.inl h)))
              · have := hr6 u hu v hv
                rw [hshape] at this
                exact this

theorem dfs_component (g : SimilarityGraph) (s : Nat) (V : List Nat)
    (hs : s ∉ V) (hsu : s ∈ universeNodes g) :
    ∃ Δ, (dfsAux g (dfs_fuel g) s V []).1 = V ++ Δ
      ∧ (dfsAux g (dfs_fuel g) s V []).2 = Δ
      ∧ Δ.Nodup ∧ (∀ x, x ∈ Δ ↔ ReachA g V s x) := by
  have hfuel : unvisN g V ≤ dfs_fuel g := by
    have : unvisN g V ≤ (universeNodes g).length := List.length_filter_le _ _
    unfold dfs_fuel
    omega
  obtain ⟨Δ, h1, h2, h3, h4, h5, h6⟩ :=
    (dfs_spec g (dfs_fuel g)).1 s V [] hfuel (Or.inl hsu)
  have hΔ1 : (dfsAux g (dfs_fuel g) s V []).1 = V ++ Δ := by rw [h1]
  have hΔ2 : (dfsAux g (dfs_fuel g) s V []).2 = Δ := by
    rw [h1]
    rfl
  refine ⟨Δ, hΔ1, hΔ2, h2, ?_⟩
  have hcompl : ∀ x, ReachA g V s x → x ∈ V ++ Δ := by
    intro x hx
    induction hx with
    | base _ => exact h4
    | step hreach hmem hv ih =>
        rename_i u v
        have hu : u ∈ Δ := by
          rcases List.mem_append.mp ih with h | h
          · exact absurd h hreach.not_mem
          · exact h
        exact h6 u hu v hmem
  intro x
  constructor
  · intro hx
    exact h5 x hx
  · intro hx
    rcases List.mem_append.mp (hcompl x hx) with h | h
    · exact absurd h hx.not_mem
    · exact h

theorem length_eq_of_nodup_set_eq (A B : List Nat) (hA : A.Nodup) (hB : B.Nodup)
    (h : ∀ x, x ∈ A ↔ x ∈ B) : A.length = B.length :=
  ((List.perm_ext_iff_of_nodup hA hB).mpr h).length_eq

theorem find_clusters_aux_eq (g : SimilarityGraph) (m : Nat) :
    ∀ nodes visitedB visitedD clustersB clustersD,
      (∀ x, x ∈ visitedB ↔ x ∈ visitedD) →
      (∀ n ∈ nodes, n ∈ universeNodes g) →
      List.Forall₂ (fun a b => ∀ x, x ∈ a ↔ x ∈ b) clustersB clustersD →
      List.Forall₂ (fun a b => ∀ x, x ∈ a ↔ x ∈ b)
        (find_clusters_aux g m nodes visitedB clustersB)
        (find_clusters_dfs_aux g m nodes visitedD clustersD) := by
  intro nodes
  induction nodes with
  | nil =>
      intro visitedB visitedD clustersB clustersD hvis hnu hcl
      simpa [find_clusters_aux, find_clusters_dfs_aux] using hcl
  | cons node nodes ih =>
      intro visitedB visitedD clustersB clustersD hvis hnu hcl
      have hnu' : ∀ n ∈ nodes, n ∈ universeNodes g :=
        fun n hn => hnu n (by simp [hn])
      by_cases hb : node ∈ visitedB
      · have hd : node ∈ visitedD := (hvis node).mp hb
        rw [find_clusters_aux, find_clusters_dfs_aux, if_pos hb, if_pos hd]
        exact ih visitedB visitedD clustersB clustersD hvis hnu' hcl
      · have hd : node ∉ visitedD := fun hc => hb ((hvis node).mpr hc)
        obtain ⟨ΔB, hB1, hB2, hB3, hB4⟩ := bfs_component g node visitedB hb
        obtain ⟨ΔD, hD1, hD2, hD3, hD4⟩ :=
          dfs_component g node visitedD hd (hnu node (by simp))
        have hset : ∀ x, x ∈ ΔB ↔ x ∈ ΔD := by
          intro x
          rw [hB4 x, hD4 x]
          exact ReachA.congr_visited hvis
        have hlen : ΔB.length = ΔD.length :=
          length_eq_of_nodup_set_eq ΔB ΔD hB3 hD3 hset
        have hvis' : ∀ x, x ∈ visitedB ++ ΔB ↔ x ∈ visitedD ++ ΔD := by
          intro x
          simp only [List.mem_append]
          rw [hvis x, hset x]
        rw [find_clusters_aux, find_clusters_dfs_aux, if_neg hb, if_neg hd]
        simp only [hB1, hB2, hD1, hD2, hlen]
        by_cases hm : m ≤ ΔD.length
        · rw [if_pos hm, if_pos hm]
          refine ih (visitedB ++ ΔB) (visitedD ++ ΔD) _ _ hvis' hnu' ?_
          exact List.rel_append hcl (List.Forall₂.cons hset List.Forall₂.nil)
        · rw [if_neg hm, if_neg hm]
          exact ih (visitedB ++ ΔB) (visitedD ++ ΔD) _ _ hvis' hnu' hcl

/-- claim C7: for every graph and every `min_cluster_size`, the BFS variant
`find_clusters` and the DFS variant `find_clusters_dfs` return the same
clusters: the two lists have the same length and corresponding clusters are
equal as sets of node ids. -/
theorem find_clusters_bfs_eq_dfs (g : SimilarityGraph) (min_cluster_size : Nat) :
    List.Forall₂ (fun a b => ∀ x, x ∈ a ↔ x ∈ b)
      (find_clusters g min_cluster_size) (find_clusters_dfs g min_cluster_size) := by
  unfold find_clusters find_clusters_dfs
  refine find_clusters_aux_eq g min_cluster_size (get_nodes g) [] [] [] []
    (fun x => Iff.rfl) ?_ List.Forall₂.nil
  intro n hn
  exact List.mem_append.mpr (Or.inl hn)

/-! ## BPlusTree (bplus_tree.py)

Python keeps a leaf's keys and values in two parallel lists mutated in
lockstep; they are modelled as one list of pairs.  An internal node keeps
`children` one longer than `keys`; it is modelled as a first child plus a
list of (separator, child) pairs, pairing `keys[i]` with `children[i+1]`.
Keys and values are `Nat`.  The in-place mutation with parent pointers of
the source corresponds to the recursion below: `_find_leaf` descends along
the scan `while key >= keys[i]`, and the split propagation performed by
`_insert_in_parent` through the parent pointers is the unwinding of the
same descent, inserting each promoted key at the position found by the
scan `while keys[i] < key` of the node's own key list. -/

mutual

inductive BPTNode where
  | leaf : List (Nat × Nat) → BPTNode
  | internal : BPTNode → SepList → BPTNode

inductive SepList where
  | nil : SepList
  | cons : Nat → BPTNode → SepList → SepList

end

/-- Length of a separator list (the node's number of keys). -/
def SepList.length : SepList → Nat
  | .nil => 0
  | .cons _ _ rest => rest.length + 1

/-- Python `keys[:m]` / `children[:m+1]` on the (separator, child) pairs. -/
def SepList.take : Nat → SepList → SepList
  | 0, _ => .nil
  | _, .nil => .nil
  | m + 1, .cons s c rest => .cons s c (rest.take m)

/-- Python `keys[m:]` / `children[m+1:]` on the (separator, child) pairs. -/
def SepList.drop : Nat → SepList → SepList
  | 0, seps => seps
  | _, .nil => .nil
  | m + 1, .cons _ _ rest => rest.drop m

/-- The insertion scan of `BPlusTreeLeafNode.insert`
(`while keys[i] < key`, update in place on an equal key, insert
otherwise); the boolean records whether an existing key was updated. -/
def leafIns (k v : Nat) : List (Nat × Nat) → List (Nat × Nat) × Bool
  | [] => ([(k, v)], false)
  | (k0, v0) :: rest =>
      if k0 < k then
        let r := leafIns k v rest
        ((k0, v0) :: r.1, r.2)
      else if k0 = k then ((k0, v) :: rest, true)
      else ((k, v) :: (k0, v0) :: rest, false)

/-- The entry list after inserting (or updating) a binding. -/
def insEntries (k v : Nat) (e : List (Nat × Nat)) : List (Nat × Nat) :=
  (leafIns k v e).1

/-- Result of inserting into a subtree: the rebuilt node, or the two
halves and the promoted key when the node split. -/
inductive InsResult where
  | one : BPTNode → InsResult
  | split : BPTNode → Nat → BPTNode → InsResult

/-- `BPlusTreeLeafNode.insert`: scan-insert, then split at
`median = len(keys) // 2` when the node holds more than `order - 1` keys;
the promoted key is the right half's first key.  (No split can follow an
update: Python returns `None` before the length check in that case.) -/
def leafInsert (order k v : Nat) (entries : List (Nat × Nat)) : InsResult :=
  let r := leafIns k v entries
  if r.2 then .one (.leaf r.1)
  else if r.1.length ≤ order - 1 then .one (.leaf r.1)
  else
    let median := r.1.length / 2
    let right := r.1.drop median
    .split (.leaf (r.1.take median)) (right.headD (0, 0)).1 (.leaf right)

/-- The insertion scan of `BPlusTreeInternalNode.insert`
(`while keys[i] < key`, then `keys.insert(i, key)` and
`children.insert(i + 1, right_child)`). -/
def sepIns (pk : Nat) (rc : BPTNode) : SepList → SepList
  | .nil => .cons pk rc .nil
  | .cons s c rest =>
      if s < pk then .cons s c (sepIns pk rc rest) else .cons pk rc (.cons s c rest)

mutual

/-- Insertion into a subtree: `BPlusTree.insert`'s leaf work plus the
upward split propagation of `_insert_in_parent`, restricted to this
subtree.  An internal node re-inserts the child's promoted key by the
scan `sepIns` and splits itself at `median = len(keys) // 2`, the median
key moving up (removed from both halves). -/
def nodeIns (order k v : Nat) : BPTNode → InsResult
  | .leaf entries => leafInsert order k v entries
  | .internal c0 seps =>
      let d := descIns order k v c0 seps
      match d.2 with
      | none => .one (.internal d.1.1 d.1.2)
      | some (pk, rc) =>
          let seps2 := sepIns pk rc d.1.2
          if seps2.length ≤ order - 1 then .one (.internal d.1.1 seps2)
          else
            let median := seps2.length / 2
            match seps2.drop median with
            | .cons mk mc rest =>
                .split (.internal d.1.1 (seps2.take median)) mk (.internal mc rest)
            | .nil => .one (.internal d.1.1 seps2)
termination_by n => sizeOf n
decreasing_by all_goals (simp; try omega)

/-- Descend into the child selected by `while key >= keys[i]`
(`BPlusTreeInternalNode.search`), insert there, and replace the child in
place by its left half on a split; the promoted pair is passed up to
`nodeIns`, which inserts it into this node's key list. -/
def descIns (order k v : Nat) : BPTNode → SepList →
    (BPTNode × SepList) × Option (Nat × BPTNode)
  | c0, .nil =>
      match nodeIns order k v c0 with
      | .one c0' => ((c0', .nil), none)
      | .split l pk r => ((l, .nil), some (pk, r))
  | c0, .cons s c rest =>
      if k ≥ s then
        let d := descIns order k v c rest
        ((c0, .cons s d.1.1 d.1.2), d.2)
      else
        match nodeIns order k v c0 with
        | .one c0' => ((c0', .cons s c rest), none)
        | .split l pk r => ((l, .cons s c rest), some (pk, r))
termination_by c0 seps => sizeOf c0 + sizeOf seps
decreasing_by all_goals (simp; try omega)

end

/-- Tree state of `BPlusTree`: the clamped order and the root node. -/
structure BPlusTree where
  order : Nat
  root : BPTNode

/-- `BPlusTree.__init__`: order clamped to at least 3, an empty leaf root. -/
def BPlusTree.empty (order : Nat) : BPlusTree := ⟨max 3 order, .leaf []⟩

/-- `BPlusTree.insert`: insert at the leaf found by `_find_leaf`, propagate
splits upward, and grow a new root when the old root splits. -/
def BPlusTree.insert (t : BPlusTree) (k v : Nat) : BPlusTree :=
  match nodeIns t.order k v t.root with
  | .one r => ⟨t.order, r⟩
  | .split l pk r => ⟨t.order, .internal l (.cons pk r .nil)⟩

mutual

/-- Entries of the leaf reached by `BPlusTree._find_leaf`. -/
def findLeafEntries (k : Nat) : BPTNode → List (Nat × Nat)
  | .leaf entries => entries
  | .internal c0 seps => findLeafAux k c0 seps
termination_by n => sizeOf n
decreasing_by all_goals (simp; try omega)

/-- The scan `while i < len(keys) and key >= keys[i]` of
`BPlusTreeInternalNode.search`, continued into the chosen child. -/
def findLeafAux (k : Nat) : BPTNode → SepList → List (Nat × Nat)
  | c0, .nil => findLeafEntries k c0
  | c0, .cons s c rest =>
      if k ≥ s then findLeafAux k c rest else findLeafEntries k c0
termination_by c0 seps => sizeOf c0 + sizeOf seps
decreasing_by all_goals (simp; try omega)

end

/-- `BPlusTreeLeafNode.search`: linear scan for an exact key match. -/
def leafSearch (k : Nat) : List (Nat × Nat) → Option Nat
  | [] => none
  | (k0, v0) :: rest => if k0 = k then some v0 else leafSearch k rest

/-- `BPlusTree.search`. -/
def BPlusTree.search (t : BPlusTree) (k : Nat) : Option Nat :=
  leafSearch k (findLeafEntries k t.root)

mutual

/-- All (key, value) pairs of a subtree in leaf order. -/
def entriesOf : BPTNode → List (Nat × Nat)
  | .leaf e => e
  | .internal c0 seps => entriesOf c0 ++ entriesSeps seps

def entriesSeps : SepList → List (Nat × Nat)
  | .nil => []
  | .cons _ c rest => entriesOf c ++ entriesSeps rest

end

mutual

/-- The in-order leaf sequence of a subtree — the `next_leaf` chain: a
leaf split links the new right leaf immediately after the original, and
internal splits do not touch leaves, so the chain always lists the leaves
in tree order. -/
def leavesOf : BPTNode → List (List (Nat × Nat))
  | .leaf e => [e]
  | .internal c0 seps => leavesOf c0 ++ leavesSeps seps

def leavesSeps : SepList → List (List (Nat × Nat))
  | .nil => []
  | .cons _ c rest => leavesOf c ++ leavesSeps rest

end

mutual

/-- The suffix of the leaf chain starting at the leaf `_find_leaf k`
reaches — the leaves `range_search` walks via `next_leaf`. -/
def leavesFrom (k : Nat) : BPTNode → List (List (Nat × Nat))
  | .leaf e => [e]
  | .internal c0 seps => leavesFromAux k c0 seps
termination_by n => sizeOf n
decreasing_by all_goals (simp; try omega)

def leavesFromAux (k : Nat) : BPTNode → SepList → List (List (Nat × Nat))
  | c0, .nil => leavesFrom k c0
  | c0, .cons s c rest =>
      if k ≥ s then leavesFromAux k c rest
      else leavesFrom k c0 ++ (leavesOf c ++ leavesSeps rest)
termination_by c0 seps => sizeOf c0 + sizeOf seps
decreasing_by all_goals (simp; try omega)

end

/-- The `for i, key in enumerate(leaf.keys)` loop of `range_search` on one
leaf: emit keys in `[start_key, end_key]`, and stop the whole scan (the
boolean) at the first key above `end_key`. -/
def scanLeaf (start_key end_key : Nat) : List (Nat × Nat) → List (Nat × Nat) × Bool
  | [] => ([], false)
  | (k, v) :: rest =>
      if start_key ≤ k ∧ k ≤ end_key then
        let r := scanLeaf start_key end_key rest
        ((k, v) :: r.1, r.2)
      else if end_key < k then ([], true)
      else scanLeaf start_key end_key rest

/-- The `while leaf:` walk of `range_search` along the `next_leaf` chain. -/
def scanChain (start_key end_key : Nat) : List (List (Nat × Nat)) → List (Nat × Nat)
  | [] => []
  | e :: rest =>
      let r := scanLeaf start_key end_key e
      if r.2 then r.1 else r.1 ++ scanChain start_key end_key rest

/-- `BPlusTree.range_search`. -/
def BPlusTree.range_search (t : BPlusTree) (start_key end_key : Nat) :
    List (Nat × Nat) :=
  scanChain start_key end_key (leavesFrom start_key t.root)

/-- Building a tree by a sequence of inserts from a fresh `BPlusTree`. -/
def buildTree (order : Nat) (ops : List (Nat × Nat)) : BPlusTree :=
  ops.foldl (fun t p => t.insert p.1 p.2) (BPlusTree.empty order)

/-- Optional strict upper bound. -/
def ltOptB (k : Nat) : Option Nat → Bool
  | none => true
  | some h => k < h

/-- Entry list strictly sorted by key, keys at least `lo` and below `hi`. -/
def sortedEntries (lo : Nat) (hi : Option Nat) : List (Nat × Nat) → Bool
  | [] => true
  | (k, _) :: rest => decide (lo ≤ k) && ltOptB k hi && sortedEntries (k + 1) hi rest

/-- Upper bound of the child left of a separator list: the first
separator, or the node's own upper bound. -/
def upperOf (hi : Option Nat) : SepList → Option Nat
  | .nil => hi
  | .cons s _ _ => some s

mutual

/-- Search-tree invariant with bounds: keys of the subtree lie in
`[lo, hi)`, leaves are strictly sorted, each internal child lies strictly
between the surrounding separators (left strict, right of a separator
inclusive), and separators strictly increase and strictly exceed `lo`. -/
def wf (lo : Nat) (hi : Option Nat) : BPTNode → Bool
  | .leaf e => sortedEntries lo hi e
  | .internal c0 seps => wf lo (upperOf hi seps) c0 && wfSeps lo hi seps

def wfSeps (lo : Nat) (hi : Option Nat) : SepList → Bool
  | .nil => true
  | .cons s c rest =>
      decide (lo < s) && ltOptB s hi && wf s (upperOf hi rest) c && wfSeps s hi rest

end

/-! ### Entry-list lemmas -/

theorem leafIns_length (k v : Nat) (e : List (Nat × Nat)) :
    (leafIns k v e).1.length
      = if (leafIns k v e).2 then e.length else e.length + 1 := by
  induction e with
  | nil => simp [leafIns]
  | cons p rest ih =>
      obtain ⟨k0, v0⟩ := p
      unfold leafIns
      by_cases h1 : k0 < k
      · simp only [if_pos h1, List.length_cons]
        by_cases h2 : (leafIns k v rest).2 <;> simp [h2] at ih ⊢ <;> omega
      · rw [if_neg h1]
        by_cases h2 : k0 = k
        · simp [h2]
        · simp [h2]

theorem leafSearch_insEntries_self (k v : Nat) (e : List (Nat × Nat)) :
    leafSearch k (insEntries k v e) = some v := by
  induction e with
  | nil => simp [insEntries, leafIns, leafSearch]
  | cons p rest ih =>
      obtain ⟨k0, v0⟩ := p
      unfold insEntries leafIns
      by_cases h1 : k0 < k
      · have hne : k0 ≠ k := Nat.ne_of_lt h1
        simp only [if_pos h1]
        rw [leafSearch, if_neg hne]
        exact ih
      · rw [if_neg h1]
        by_cases h2 : k0 = k
        · rw [if_pos h2]
          simp only
          rw [leafSearch, if_pos h2]
        · rw [if_neg h2]
          simp only
          rw [leafSearch, if_pos rfl]

theorem leafSearch_insEntries_other (k v k' : Nat) (e : List (Nat × Nat))
    (hne : k' ≠ k) : leafSearch k' (insEntries k v e) = leafSearch k' e := by
  induction e with
  | nil =>
      simp only [insEntries, leafIns]
      have hkk : k ≠ k' := fun hc => hne hc.symm
      simp [leafSearch, hkk]
  | cons p rest ih =>
      obtain ⟨k0, v0⟩ := p
      unfold insEntries leafIns
      by_cases h1 : k0 < k
      · simp only [if_pos h1]
        rw [leafSearch, leafSearch]
        by_cases h3 : k0 = k'
        · rw [if_pos h3, if_pos h3]
        · rw [if_neg h3, if_neg h3]
          exact ih
      · rw [if_neg h1]
        by_cases h2 : k0 = k
        · rw [if_pos h2]
          simp only
          rw [leafSearch, leafSearch]
          have h3 : k0 ≠ k' := fun hc => hne (hc ▸ h2)
          rw [if_neg h3, if_neg h3]
        · rw [if_neg h2]
          simp only
          rw [leafSearch, if_neg (fun hc : k = k' => hne hc.symm)]

theorem leafIns_append_left (k v : Nat) (e1 e2 : List (Nat × Nat))
    (h : ∀ p ∈ e1, p.1 < k) :
    leafIns k v (e1 ++ e2) = ((e1 ++ (leafIns k v e2).1), (leafIns k v e2).2) := by
  induction e1 with
  | nil => rfl
  | cons p rest ih =>
      obtain ⟨k0, v0⟩ := p
      have hk0 : k0 < k := h (k0, v0) (by simp)
      rw [List.cons_append, leafIns, if_pos hk0, ih (fun q hq => h q (by simp [hq]))]
      simp

theorem leafIns_append_right (k v : Nat) (e1 e2 : List (Nat × Nat))
    (h : ∀ p ∈ e2, k < p.1) :
    leafIns k v (e1 ++ e2) = ((leafIns k v e1).1 ++ e2, (leafIns k v e1).2) := by
  induction e1 with
  | nil =>
      simp only [List.nil_append]
      cases e2 with
      | nil => rfl
      | cons q rest =>
          obtain ⟨k2, v2⟩ := q
          have hk2 : k < k2 := h (k2, v2) (by simp)
          unfold leafIns
          rw [if_neg (by omega), if_neg (by omega)]
          rfl
  | cons p rest ih =>
      obtain ⟨k0, v0⟩ := p
      rw [List.cons_append]
      unfold leafIns
      by_cases h1 : k0 < k
      · rw [if_pos h1, if_pos h1, ih]
        rfl
      · rw [if_neg h1, if_neg h1]
        by_cases h2 : k0 = k
        · rw [if_pos h2, if_pos h2]
          rfl
        · rw [if_neg h2, if_neg h2]
          rfl

theorem insEntries_append_left (k v : Nat) (e1 e2 : List (Nat × Nat))
    (h : ∀ p ∈ e1, p.1 < k) :
    insEntries k v (e1 ++ e2) = e1 ++ insEntries k v e2 := by
  unfold insEntries
  rw [leafIns_append_left k v e1 e2 h]

theorem insEntries_append_right (k v : Nat) (e1 e2 : List (Nat × Nat))
    (h : ∀ p ∈ e2, k < p.1) :
    insEntries k v (e1 ++ e2) = insEntries k v e1 ++ e2 := by
  unfold insEntries
  rw [leafIns_append_right k v e1 e2 h]

theorem leafSearch_append_left (k : Nat) (e1 e2 : List (Nat × Nat))
    (h : k ∉ e1.map Prod.fst) :
    leafSearch k (e1 ++ e2) = leafSearch k e2 := by
  induction e1 with
  | nil => rfl
  | cons p rest ih =>
      obtain ⟨k0, v0⟩ := p
      have hne : k0 ≠ k := by
        intro hc
        exact h (by simp [hc])
      rw [List.cons_append, leafSearch, if_neg hne]
      exact ih (fun hc => h (by simp at hc; simp [hc]))

theorem leafSearch_append_right (k : Nat) (e1 e2 : List (Nat × Nat))
    (h : k ∉ e2.map Prod.fst) :
    leafSearch k (e1 ++ e2) = leafSearch k e1 := by
  induction e1 with
  | nil =>
      simp only [List.nil_append]
      induction e2 with
      | nil => rfl
      | cons q rest ih2 =>
          obtain ⟨k2, v2⟩ := q
          have hne : k2 ≠ k := by
            intro hc
            exact h (by simp [hc])
          show (if k2 = k then some v2 else leafSearch k rest) = none
          rw [if_neg hne]
          exact ih2 (fun hc => h (by simp at hc ⊢; simp [hc]))
  | cons p rest ih =>
      obtain ⟨k0, v0⟩ := p
      rw [List.cons_append, leafSearch, leafSearch]
      by_cases h3 : k0 = k
      · rw [if_pos h3, if_pos h3]
      · rw [if_neg h3, if_neg h3]
        exact ih

theorem sortedEntries_lower (lo : Nat) (hi : Option Nat) (e : List (Nat × Nat))
    (h : sortedEntries lo hi e = true) : ∀ p ∈ e, lo ≤ p.1 ∧ ltOptB p.1 hi = true := by
  induction e generalizing lo with
  | nil => simp
  | cons p rest ih =>
      obtain ⟨k0, v0⟩ := p
      rw [sortedEntries] at h
      simp only [Bool.and_eq_true, decide_eq_true_eq] at h
      intro q hq
      rcases List.mem_cons.mp hq with hq | hq
      · exact ⟨by simp [hq, h.1.1], by simp [hq, h.1.2]⟩
      · have := ih (k0 + 1) h.2 q hq
        exact ⟨by omega, this.2⟩

theorem sortedEntries_weaken_lo (lo lo' : Nat) (hi : Option Nat)
    (e : List (Nat × Nat)) (hle : lo ≤ lo')
    (h : sortedEntries lo' hi e = true) : sortedEntries lo hi e = true := by
  cases e with
  | nil => rfl
  | cons p rest =>
      obtain ⟨k0, v0⟩ := p
      rw [sortedEntries] at h ⊢
      simp only [Bool.and_eq_true, decide_eq_true_eq] at h ⊢
      exact ⟨⟨by omega, h.1.2⟩, h.2⟩

theorem sortedEntries_weaken_hi (lo : Nat) (hi hi' : Option Nat)
    (e : List (Nat × Nat)) (hw : ∀ kk : Nat, ltOptB kk hi = true → ltOptB kk hi' = true)
    (h : sortedEntries lo hi e = true) : sortedEntries lo hi' e = true := by
  induction e generalizing lo with
  | nil => rfl
  | cons p rest ih =>
      obtain ⟨k0, v0⟩ := p
      rw [sortedEntries] at h ⊢
      simp only [Bool.and_eq_true, decide_eq_true_eq] at h ⊢
      exact ⟨⟨h.1.1, hw k0 h.1.2⟩, ih (k0 + 1) h.2⟩

theorem sortedEntries_append (lo m : Nat) (hi : Option Nat)
    (e1 e2 : List (Nat × Nat)) (h1 : sortedEntries lo (some m) e1 = true)
    (h2 : sortedEntries m hi e2 = true)
    (hmh : ∀ kk : Nat, kk < m → ltOptB kk hi = true) (hlom : lo ≤ m) :
    sortedEntries lo hi (e1 ++ e2) = true := by
  induction e1 generalizing lo with
  | nil => exact sortedEntries_weaken_lo lo m hi e2 hlom h2
  | cons p rest ih =>
      obtain ⟨k0, v0⟩ := p
      rw [sortedEntries] at h1
      simp only [Bool.and_eq_true, decide_eq_true_eq] at h1
      have hk0m : k0 < m := by simpa [ltOptB] using h1.1.2
      rw [List.cons_append, sortedEntries]
      simp only [Bool.and_eq_true, decide_eq_true_eq]
      exact ⟨⟨h1.1.1, hmh k0 hk0m⟩, ih (k0 + 1) h1.2 (by omega)⟩

theorem sortedEntries_append_right (lo : Nat) (hi : Option Nat)
    (e1 e2 : List (Nat × Nat)) (h : sortedEntries lo hi (e1 ++ e2) = true) :
    sortedEntries lo hi e2 = true := by
  induction e1 generalizing lo with
  | nil => exact h
  | cons p rest ih =>
      obtain ⟨k0, v0⟩ := p
      rw [List.cons_append, sortedEntries] at h
      simp only [Bool.and_eq_true, decide_eq_true_eq] at h
      exact sortedEntries_weaken_lo lo (k0 + 1) hi e2 (by omega) (ih (k0 + 1) h.2)

theorem sortedEntries_append_cross (lo : Nat) (hi : Option Nat)
    (e1 e2 : List (Nat × Nat)) (h : sortedEntries lo hi (e1 ++ e2) = true) :
    ∀ p1 ∈ e1, ∀ p2 ∈ e2, p1.1 < p2.1 := by
  induction e1 generalizing lo with
  | nil => simp
  | cons p rest ih =>
      obtain ⟨k0, v0⟩ := p
      rw [List.cons_append, sortedEntries] at h
      simp only [Bool.and_eq_true, decide_eq_true_eq] at h
      intro p1 hp1 p2 hp2
      rcases List.mem_cons.mp hp1 with hp1 | hp1
      · have := sortedEntries_lower (k0 + 1) hi (rest ++ e2) h.2 p2
          (by simp [hp2])
        simp [hp1]
        omega
      · exact ih (k0 + 1) h.2 p1 hp1 p2 hp2

theorem sortedEntries_pairwise (lo : Nat) (hi : Option Nat)
    (e : List (Nat × Nat)) (h : sortedEntries lo hi e = true) :
    e.Pairwise (fun p q => p.1 < q.1) := by
  induction e generalizing lo with
  | nil => exact List.Pairwise.nil
  | cons p rest ih =>
      obtain ⟨k0, v0⟩ := p
      rw [sortedEntries] at h
      simp only [Bool.and_eq_true, decide_eq_true_eq] at h
      refine List.pairwise_cons.mpr ⟨?_, ih (k0 + 1) h.2⟩
      intro q hq
      have := sortedEntries_lower (k0 + 1) hi rest h.2 q hq
      omega

theorem ltOptB_trans (a s : Nat) (hi : Option Nat) (h1 : a < s)
    (h2 : ltOptB s hi = true) : ltOptB a hi = true := by
  cases hi with
  | none => rfl
  | some h =>
      simp [ltOptB] at h2 ⊢
      omega

theorem insEntries_sorted (k v lo : Nat) (hi : Option Nat) (e : List (Nat × Nat))
    (h : sortedEntries lo hi e = true) (hlo : lo ≤ k) (hhi : ltOptB k hi = true) :
    sortedEntries lo hi (insEntries k v e) = true := by
  induction e generalizing lo with
  | nil =>
      simp only [insEntries, leafIns, sortedEntries]
      simp [hlo, hhi]
  | cons p rest ih =>
      obtain ⟨k0, v0⟩ := p
      rw [sortedEntries] at h
      simp only [Bool.and_eq_true, decide_eq_true_eq] at h
      unfold insEntries leafIns
      by_cases h1 : k0 < k
      · rw [if_pos h1]
        show sortedEntries lo hi ((k0, v0) :: (leafIns k v rest).1) = true
        rw [sortedEntries]
        simp only [Bool.and_eq_true, decide_eq_true_eq]
        exact ⟨⟨h.1.1, h.1.2⟩, ih (k0 + 1) h.2 (by omega)⟩
      · rw [if_neg h1]
        by_cases h2 : k0 = k
        · rw [if_pos h2]
          show sortedEntries lo hi ((k0, v) :: rest) = true
          rw [sortedEntries]
          simp only [Bool.and_eq_true, decide_eq_true_eq]
          exact ⟨⟨h.1.1, h.1.2⟩, h.2⟩
        · rw [if_neg h2]
          show sortedEntries lo hi ((k, v) :: (k0, v0) :: rest) = true
          rw [sortedEntries, sortedEntries]
          simp only [Bool.and_eq_true, decide_eq_true_eq]
          exact ⟨⟨hlo, hhi⟩, ⟨by omega, h.1.2⟩, h.2⟩

theorem sortedEntries_split (e : List (Nat × Nat)) :
    ∀ lo m pk pv rest', ∀ hi : Option Nat, 1 ≤ m →
      sortedEntries lo hi e = true → e.drop m = (pk, pv) :: rest' →
      lo < pk ∧ ltOptB pk hi = true
        ∧ sortedEntries lo (some pk) (e.take m) = true
        ∧ sortedEntries pk hi (e.drop m) = true := by
  induction e with
  | nil =>
      intro lo m pk pv rest' hi hm hs hdrop
      simp at hdrop
  | cons p rest ih =>
      obtain ⟨k0, v0⟩ := p
      intro lo m pk pv rest' hi hm hs hdrop
      rw [sortedEntries] at hs
      simp only [Bool.and_eq_true, decide_eq_true_eq] at hs
      obtain ⟨m', rfl⟩ : ∃ m', m = m' + 1 := ⟨m - 1, by omega⟩
      rw [List.drop_succ_cons] at hdrop
      cases Nat.eq_zero_or_pos m' with
      | inl hz =>
          subst hz
          rw [List.drop_zero] at hdrop
          subst hdrop
          rw [sortedEntries] at hs
          simp only [Bool.and_eq_true, decide_eq_true_eq] at hs
          refine ⟨by omega, hs.2.1.2, ?_, ?_⟩
          · show sortedEntries lo (some pk) [(k0, v0)] = true
            rw [sortedEntries]
            simp only [Bool.and_eq_true, decide_eq_true_eq]
            exact ⟨⟨hs.1.1, by simp [ltOptB]; omega⟩, rfl⟩
          · show sortedEntries pk hi ((pk, pv) :: rest') = true
            rw [sortedEntries]
            simp only [Bool.and_eq_true, decide_eq_true_eq]
            exact ⟨⟨le_refl pk, hs.2.1.2⟩, hs.2.2⟩
      | inr hpos =>
          obtain ⟨h1, h2, h3, h4⟩ :=
            ih (k0 + 1) m' pk pv rest' hi hpos hs.2 hdrop
          refine ⟨by omega, h2, ?_, ?_⟩
          · show sortedEntries lo (some pk) ((k0, v0) :: rest.take m') = true
            rw [sortedEntries]
            simp only [Bool.and_eq_true, decide_eq_true_eq]
            exact ⟨⟨hs.1.1, by simp [ltOptB]; omega⟩, h3⟩
          · rw [List.drop_succ_cons]
            exact h4

/-! ### SepList lemmas -/

theorem sepList_drop_length (seps : SepList) :
    ∀ m, (seps.drop m).length = seps.length - m :=
  match seps with
  | .nil => by
      intro m
      cases m <;> simp [SepList.drop, SepList.length]
  | .cons s c rest => by
      intro m
      cases m with
      | zero => rfl
      | succ m' =>
          rw [SepList.drop, SepList.length, sepList_drop_length rest m']
          omega

theorem entriesSeps_take_drop (seps : SepList) :
    ∀ m mk mc rest, seps.drop m = .cons mk mc rest →
      entriesSeps seps
        = entriesSeps (seps.take m) ++ (entriesOf mc ++ entriesSeps rest) :=
  match seps with
  | .nil => by
      intro m mk mc rest h
      cases m <;> simp [SepList.drop] at h
  | .cons s c rest0 => by
      intro m mk mc rest h
      cases m with
      | zero =>
          rw [SepList.drop] at h
          rw [h]
          rfl
      | succ m' =>
          rw [SepList.drop] at h
          show entriesOf c ++ entriesSeps rest0 = _
          rw [SepList.take]
          show _ = (entriesOf c ++ entriesSeps (rest0.take m'))
            ++ (entriesOf mc ++ entriesSeps rest)
          rw [entriesSeps_take_drop rest0 m' mk mc rest h, List.append_assoc]

theorem sep_drop_lower (seps : SepList) :
    ∀ lo m mk mc rest, ∀ hi : Option Nat, wfSeps lo hi seps = true →
      seps.drop m = .cons mk mc rest → lo < mk :=
  match seps with
  | .nil => by
      intro lo m mk mc rest hi hwf h
      cases m <;> simp [SepList.drop] at h
  | .cons s c rest0 => by
      intro lo m mk mc rest hi hwf h
      rw [wfSeps] at hwf
      simp only [Bool.and_eq_true, decide_eq_true_eq] at hwf
      cases m with
      | zero =>
          rw [SepList.drop] at h
          cases h
          exact hwf.1.1.1
      | succ m' =>
          rw [SepList.drop] at h
          have := sep_drop_lower rest0 s m' mk mc rest hi hwf.2 h
          omega

theorem upperOf_take (seps : SepList) :
    ∀ m mk mc rest, ∀ hi : Option Nat, seps.drop m = .cons mk mc rest →
      upperOf (some mk) (seps.take m) = upperOf hi seps :=
  match seps with
  | .nil => by
      intro m mk mc rest hi h
      cases m <;> simp [SepList.drop] at h
  | .cons s c rest0 => by
      intro m mk mc rest hi h
      cases m with
      | zero =>
          rw [SepList.drop] at h
          cases h
          rfl
      | succ m' => rfl

theorem wfSeps_take (seps : SepList) :
    ∀ lo m mk mc rest, ∀ hi : Option Nat, wfSeps lo hi seps = true →
      seps.drop m = .cons mk mc rest → wfSeps lo (some mk) (seps.take m) = true :=
  match seps with
  | .nil => by
      intro lo m mk mc rest hi hwf h
      cases m <;> simp [SepList.drop] at h
  | .cons s c rest0 => by
      intro lo m mk mc rest hi hwf h
      rw [wfSeps] at hwf
      simp only [Bool.and_eq_true, decide_eq_true_eq] at hwf
      cases m with
      | zero => rfl
      | succ m' =>
          rw [SepList.drop] at h
          rw [SepList.take, wfSeps]
          simp only [Bool.and_eq_true, decide_eq_true_eq]
          have hsmk : s < mk := sep_drop_lower rest0 s m' mk mc rest hi hwf.2 h
          refine ⟨⟨⟨hwf.1.1.1, by simp [ltOptB]; omega⟩, ?_⟩,
            wfSeps_take rest0 s m' mk mc rest hi hwf.2 h⟩
          rw [upperOf_take rest0 m' mk mc rest hi h]
          exact hwf.1.2

theorem wfSeps_drop (seps : SepList) :
    ∀ lo m mk mc rest, ∀ hi : Option Nat, wfSeps lo hi seps = true →
      seps.drop m = .cons mk mc rest →
      ltOptB mk hi = true ∧ wf mk (upperOf hi rest) mc = true
        ∧ wfSeps mk hi rest = true :=
  match seps with
  | .nil => by
      intro lo m mk mc rest hi hwf h
      cases m <;> simp [SepList.drop] at h
  | .cons s c rest0 => by
      intro lo m mk mc rest hi hwf h
      rw [wfSeps] at hwf
      simp only [Bool.and_eq_true, decide_eq_true_eq] at hwf
      cases m with
      | zero =>
          rw [SepList.drop] at h
          cases h
          exact ⟨hwf.1.1.2, hwf.1.2, hwf.2⟩
      | succ m' =>
          rw [SepList.drop] at h
          exact wfSeps_drop rest0 s m' mk mc rest hi hwf.2 h

mutual

theorem entries_bounds (lo : Nat) (hi : Option Nat) (n : BPTNode)
    (h : wf lo hi n = true) :
    ∀ p ∈ entriesOf n, lo ≤ p.1 ∧ ltOptB p.1 hi = true :=
  match n with
  | .leaf e => by
      intro p hp
      have := sortedEntries_lower lo hi e (by simpa [wf] using h) p hp
      exact this
  | .internal c0 seps => by
      rw [wf] at h
      simp only [Bool.and_eq_true] at h
      intro p hp
      rw [entriesOf] at hp
      rcases List.mem_append.mp hp with hp | hp
      · have hb := entries_bounds lo (upperOf hi seps) c0 h.1 p hp
        refine ⟨hb.1, ?_⟩
        cases seps with
        | nil => exact hb.2
        | cons s c rest =>
            rw [wfSeps] at h
            simp only [Bool.and_eq_true, decide_eq_true_eq] at h
            have hs : p.1 < s := by simpa [upperOf, ltOptB] using hb.2
            exact ltOptB_trans p.1 s hi hs h.2.1.1.2
      · have hb := entriesSeps_bounds lo hi seps h.2 p hp
        exact ⟨le_of_lt hb.1, hb.2⟩

theorem entriesSeps_bounds (lo : Nat) (hi : Option Nat) (seps : SepList)
    (h : wfSeps lo hi seps = true) :
    ∀ p ∈ entriesSeps seps, lo < p.1 ∧ ltOptB p.1 hi = true :=
  match seps with
  | .nil => by
      intro p hp
      simp [entriesSeps] at hp
  | .cons s c rest => by
      rw [wfSeps] at h
      simp only [Bool.and_eq_true, decide_eq_true_eq] at h
      intro p hp
      rw [entriesSeps] at hp
      rcases List.mem_append.mp hp with hp | hp
      · have hb := entries_bounds s (upperOf hi rest) c h.1.2 p hp
        refine ⟨by omega, ?_⟩
        cases rest with
        | nil => exact hb.2
        | cons s' c' rest' =>
            rw [wfSeps] at h
            simp only [Bool.and_eq_true, decide_eq_true_eq] at h
            have hs : p.1 < s' := by simpa [upperOf, ltOptB] using hb.2
            exact ltOptB_trans p.1 s' hi hs h.2.1.1.2
      · have hb := entriesSeps_bounds s hi rest h.2 p hp
        exact ⟨by omega, hb.2⟩

end

/-- First separator of a separator list (0 when empty). -/
def headSep : SepList → Nat
  | .nil => 0
  | .cons s _ _ => s

mutual

theorem entries_sorted (lo : Nat) (hi : Option Nat) (n : BPTNode)
    (h : wf lo hi n = true) : sortedEntries lo hi (entriesOf n) = true :=
  match n with
  | .leaf e => by simpa [wf, entriesOf] using h
  | .internal c0 seps => by
      rw [wf] at h
      simp only [Bool.and_eq_true] at h
      rw [entriesOf]
      cases seps with
      | nil =>
          rw [entriesSeps, List.append_nil]
          exact entries_sorted lo hi c0 h.1
      | cons s c rest =>
          have hw := h.2
          rw [wfSeps] at hw
          simp only [Bool.and_eq_true, decide_eq_true_eq] at hw
          refine sortedEntries_append lo s hi _ _
            (entries_sorted lo (some s) c0 h.1) ?_ ?_ (by omega)
          · have := entriesSeps_sorted lo hi (.cons s c rest) h.2
            simpa [headSep] using this
          · intro kk hkk
            exact ltOptB_trans kk s hi hkk hw.1.1.2

theorem entriesSeps_sorted (lo : Nat) (hi : Option Nat) (seps : SepList)
    (h : wfSeps lo hi seps = true) :
    sortedEntries (headSep seps) hi (entriesSeps seps) = true :=
  match seps with
  | .nil => rfl
  | .cons s c rest => by
      rw [wfSeps] at h
      simp only [Bool.and_eq_true, decide_eq_true_eq] at h
      show sortedEntries s hi (entriesOf c ++ entriesSeps rest) = true
      cases rest with
      | nil =>
          rw [entriesSeps, List.append_nil]
          exact entries_sorted s (upperOf hi .nil) c h.1.2
      | cons s' c' rest' =>
          have hw := h.2
          rw [wfSeps] at hw
          simp only [Bool.and_eq_true, decide_eq_true_eq] at hw
          refine sortedEntries_append s s' hi _ _
            (entries_sorted s (some s') c h.1.2) ?_ ?_ (by omega)
          · have := entriesSeps_sorted s hi (.cons s' c' rest') h.2
            simpa [headSep] using this
          · intro kk hkk
            exact ltOptB_trans kk s' hi hkk hw.1.1.2

end

theorem entriesSeps_cons_lower (lo s : Nat) (hi : Option Nat) (c : BPTNode)
    (rest : SepList) (h : wfSeps lo hi (.cons s c rest) = true) :
    ∀ p ∈ entriesSeps (.cons s c rest), s ≤ p.1 := by
  rw [wfSeps] at h
  simp only [Bool.and_eq_true, decide_eq_true_eq] at h
  intro p hp
  rw [entriesSeps] at hp
  rcases List.mem_append.mp hp with hp | hp
  · exact (entries_bounds s (upperOf hi rest) c h.1.2 p hp).1
  · exact le_of_lt (entriesSeps_bounds s hi rest h.2 p hp).1

/-- Combined state after a child insertion: the child replaced in place,
and the promoted pair (when the child split) inserted into the key list by
the scan of `BPlusTreeInternalNode.insert`. -/
def applyPromo (d : (BPTNode × SepList) × Option (Nat × BPTNode)) :
    BPTNode × SepList :=
  match d.2 with
  | none => d.1
  | some (pk, rc) => (d.1.1, sepIns pk rc d.1.2)

/-- Correctness of one insertion step relative to bounds `[lo, hi)` and
the subtree's previous entry list `E`. -/
def InsOk (lo : Nat) (hi : Option Nat) (k v : Nat) (E : List (Nat × Nat)) :
    InsResult → Prop
  | .one n' => wf lo hi n' = true ∧ entriesOf n' = insEntries k v E
  | .split l pk r => wf lo (some pk) l = true ∧ wf pk hi r = true ∧ lo < pk
      ∧ ltOptB pk hi = true
      ∧ entriesOf l ++ entriesOf r = insEntries k v E

theorem leafInsert_ok (order k v lo : Nat) (hi : Option Nat)
    (e : List (Nat × Nat)) (h3 : 3 ≤ order)
    (hs : sortedEntries lo hi e = true) (hlo : lo ≤ k) (hhi : ltOptB k hi = true) :
    InsOk lo hi k v e (leafInsert order k v e) := by
  have hsorted : sortedEntries lo hi (leafIns k v e).1 = true :=
    insEntries_sorted k v lo hi e hs hlo hhi
  unfold leafInsert
  by_cases hupd : (leafIns k v e).2
  · rw [if_pos hupd]
    exact ⟨by simpa [wf] using hsorted, rfl⟩
  · rw [if_neg hupd]
    by_cases hlen : (leafIns k v e).1.length ≤ order - 1
    · rw [if_pos hlen]
      exact ⟨by simpa [wf] using hsorted, rfl⟩
    · rw [if_neg hlen]
      have hlen3 : 3 ≤ (leafIns k v e).1.length := by omega
      have hm1 : 1 ≤ (leafIns k v e).1.length / 2 := by omega
      have hmlt : (leafIns k v e).1.length / 2 < (leafIns k v e).1.length := by omega
      obtain ⟨pk, pv, rest', hdrop⟩ : ∃ pk pv rest',
          (leafIns k v e).1.drop ((leafIns k v e).1.length / 2) = (pk, pv) :: rest' := by
        cases hd : (leafIns k v e).1.drop ((leafIns k v e).1.length / 2) with
        | nil =>
            have := congrArg List.length hd
            rw [List.length_drop] at this
            simp at this
            omega
        | cons q tl =>
            obtain ⟨q1, q2⟩ := q
            exact ⟨q1, q2, tl, rfl⟩
      obtain ⟨hpk1, hpk2, hpk3, hpk4⟩ := sortedEntries_split (leafIns k v e).1 lo
        ((leafIns k v e).1.length / 2) pk pv rest' hi hm1 hsorted hdrop
      show InsOk lo hi k v e (.split
        (.leaf ((leafIns k v e).1.take ((leafIns k v e).1.length / 2)))
        (((leafIns k v e).1.drop ((leafIns k v e).1.length / 2)).headD (0, 0)).1
        (.leaf ((leafIns k v e).1.drop ((leafIns k v e).1.length / 2))))
      rw [hdrop, List.headD_cons]
      refine ⟨by simpa [wf] using hpk3, ?_, hpk1, hpk2, ?_⟩
      · show wf pk hi (.leaf ((pk, pv) :: rest')) = true
        rw [← hdrop]
        simpa [wf] using hpk4
      · show (leafIns k v e).1.take ((leafIns k v e).1.length / 2)
          ++ ((pk, pv) :: rest') = insEntries k v e
        rw [← hdrop, List.take_append_drop]
        rfl

theorem internal_split_ok (lo : Nat) (hi : Option Nat) (c0 : BPTNode)
    (seps2 : SepList) (m mk : Nat) (mc : BPTNode) (rest : SepList)
    (hwfc : wf lo (upperOf hi seps2) c0 = true)
    (hwfs : wfSeps lo hi seps2 = true)
    (hdrop : seps2.drop m = .cons mk mc rest) :
    wf lo (some mk) (.internal c0 (seps2.take m)) = true
    ∧ wf mk hi (.internal mc rest) = true
    ∧ lo < mk ∧ ltOptB mk hi = true
    ∧ entriesOf (.internal c0 (seps2.take m)) ++ entriesOf (.internal mc rest)
        = entriesOf c0 ++ entriesSeps seps2 := by
  obtain ⟨hd1, hd2, hd3⟩ := wfSeps_drop seps2 lo m mk mc rest hi hwfs hdrop
  refine ⟨?_, ?_, sep_drop_lower seps2 lo m mk mc rest hi hwfs hdrop, hd1, ?_⟩
  · rw [wf]
    simp only [Bool.and_eq_true]
    constructor
    · rw [upperOf_take seps2 m mk mc rest hi hdrop]
      exact hwfc
    · exact wfSeps_take seps2 lo m mk mc rest hi hwfs hdrop
  · rw [wf]
    simp only [Bool.and_eq_true]
    exact ⟨hd2, hd3⟩
  · rw [entriesOf, entriesOf, List.append_assoc,
      ← entriesSeps_take_drop seps2 m mk mc rest hdrop]

mutual

theorem nodeIns_wf (order k v lo : Nat) (hi : Option Nat) (n : BPTNode)
    (h3 : 3 ≤ order) (hwf : wf lo hi n = true) (hlo : lo ≤ k)
    (hhi : ltOptB k hi = true) :
    InsOk lo hi k v (entriesOf n) (nodeIns order k v n) :=
  match n with
  | .leaf e => by
      rw [nodeIns, entriesOf]
      exact leafInsert_ok order k v lo hi e h3 (by simpa [wf] using hwf) hlo hhi
  | .internal c0 seps => by
      rw [wf] at hwf
      simp only [Bool.and_eq_true] at hwf
      have hd := descIns_wf order k v lo hi c0 seps h3 hwf.1 hwf.2 hlo hhi
      rw [entriesOf]
      cases hd2 : (descIns order k v c0 seps).2 with
      | none =>
          simp only [applyPromo, hd2] at hd
          simp only [nodeIns, hd2]
          refine ⟨?_, ?_⟩
          · rw [wf]
            simp only [Bool.and_eq_true]
            exact ⟨hd.1, hd.2.1⟩
          · rw [entriesOf]
            exact hd.2.2.1
      | some pr =>
          obtain ⟨pk, rc⟩ := pr
          simp only [applyPromo, hd2] at hd
          simp only [nodeIns, hd2]
          by_cases hcap : (sepIns pk rc (descIns order k v c0 seps).1.2).length ≤ order - 1
          · rw [if_pos hcap]
            refine ⟨?_, ?_⟩
            · rw [wf]
              simp only [Bool.and_eq_true]
              exact ⟨hd.1, hd.2.1⟩
            · rw [entriesOf]
              exact hd.2.2.1
          · rw [if_neg hcap]
            cases hdrop : (sepIns pk rc (descIns order k v c0 seps).1.2).drop
                ((sepIns pk rc (descIns order k v c0 seps).1.2).length / 2) with
            | nil =>
                refine ⟨?_, ?_⟩
                · rw [wf]
                  simp only [Bool.and_eq_true]
                  exact ⟨hd.1, hd.2.1⟩
                · rw [entriesOf]
                  exact hd.2.2.1
            | cons mk mc rest =>
                obtain ⟨hs1, hs2, hs3, hs4, hs5⟩ := internal_split_ok lo hi
                  (descIns order k v c0 seps).1.1
                  (sepIns pk rc (descIns order k v c0 seps).1.2)
                  ((sepIns pk rc (descIns order k v c0 seps).1.2).length / 2)
                  mk mc rest hd.1 hd.2.1 hdrop
                exact ⟨hs1, hs2, hs3, hs4, by rw [hs5]; exact hd.2.2.1⟩
termination_by sizeOf n

theorem descIns_wf (order k v lo : Nat) (hi : Option Nat) (c0 : BPTNode)
    (seps : SepList) (h3 : 3 ≤ order)
    (hwfc : wf lo (upperOf hi seps) c0 = true)
    (hwfs : wfSeps lo hi seps = true) (hlo : lo ≤ k)
    (hhi : ltOptB k hi = true) :
    wf lo (upperOf hi (applyPromo (descIns order k v c0 seps)).2)
        (applyPromo (descIns order k v c0 seps)).1 = true
    ∧ wfSeps lo hi (applyPromo (descIns order k v c0 seps)).2 = true
    ∧ entriesOf (applyPromo (descIns order k v c0 seps)).1
        ++ entriesSeps (applyPromo (descIns order k v c0 seps)).2
        = insEntries k v (entriesOf c0 ++ entriesSeps seps)
    ∧ (∀ pk rc, (descIns order k v c0 seps).2 = some (pk, rc) → lo < pk) :=
  match seps with
  | .nil => by
      rw [upperOf] at hwfc
      have hni := nodeIns_wf order k v lo hi c0 h3 hwfc hlo hhi
      cases hn : nodeIns order k v c0 with
      | one c0' =>
          rw [hn] at hni
          simp only [InsOk] at hni
          simp only [descIns, hn, applyPromo]
          refine ⟨by rw [upperOf]; exact hni.1, rfl, ?_, by intro pk rc h; cases h⟩
          rw [entriesSeps, List.append_nil, List.append_nil]
          exact hni.2
      | split l pk r =>
          rw [hn] at hni
          simp only [InsOk] at hni
          simp only [descIns, hn, applyPromo]
          refine ⟨?_, ?_, ?_, ?_⟩
          · show wf lo (upperOf hi (sepIns pk r .nil)) l = true
            rw [sepIns, upperOf]
            exact hni.1
          · show wfSeps lo hi (sepIns pk r .nil) = true
            rw [sepIns, wfSeps, upperOf]
            simp only [Bool.and_eq_true, decide_eq_true_eq]
            exact ⟨⟨⟨hni.2.2.1, hni.2.2.2.1⟩, hni.2.1⟩, rfl⟩
          · show entriesOf l ++ entriesSeps (sepIns pk r .nil)
              = insEntries k v (entriesOf c0 ++ entriesSeps .nil)
            rw [sepIns, entriesSeps, entriesSeps, entriesSeps, List.append_nil,
              List.append_nil]
            exact hni.2.2.2.2
          · intro pk' rc' h
            injection h with h'
            injection h' with h1 h2
            exact h1 ▸ hni.2.2.1
  | .cons s c rest => by
      have hwfs' := hwfs
      rw [wfSeps] at hwfs'
      simp only [Bool.and_eq_true, decide_eq_true_eq] at hwfs'
      have hupc0 : upperOf hi (SepList.cons s c rest) = some s := rfl
      rw [hupc0] at hwfc
      have hc0keys : ∀ p ∈ entriesOf c0, p.1 < k ∨ p.1 < s := by
        intro p hp
        have := entries_bounds lo (some s) c0 hwfc p hp
        right
        simpa [ltOptB] using this.2
      by_cases hks : k ≥ s
      · have hinner := descIns_wf order k v s hi c rest h3 hwfs'.1.2 hwfs'.2
          hks hhi
        rw [descIns]
        rw [if_pos hks]
        have hc0lt : ∀ p ∈ entriesOf c0, p.1 < k := by
          intro p hp
          have := entries_bounds lo (some s) c0 hwfc p hp
          have hps : p.1 < s := by simpa [ltOptB] using this.2
          omega
        cases hd2 : (descIns order k v c rest).2 with
        | none =>
            simp only [applyPromo, hd2] at hinner
            simp only [applyPromo, hd2]
            refine ⟨?_, ?_, ?_, by intro pk rc h; cases h⟩
            · show wf lo (some s) c0 = true
              exact hwfc
            · show wfSeps lo hi (.cons s (descIns order k v c rest).1.1
                (descIns order k v c rest).1.2) = true
              rw [wfSeps]
              simp only [Bool.and_eq_true, decide_eq_true_eq]
              exact ⟨⟨⟨hwfs'.1.1.1, hwfs'.1.1.2⟩, hinner.1⟩, hinner.2.1⟩
            · show entriesOf c0 ++ (entriesOf (descIns order k v c rest).1.1
                ++ entriesSeps (descIns order k v c rest).1.2)
                = insEntries k v (entriesOf c0 ++ (entriesOf c ++ entriesSeps rest))
              rw [hinner.2.2.1, insEntries_append_left k v _ _ hc0lt]
        | some pr =>
            obtain ⟨pk, rc⟩ := pr
            simp only [applyPromo, hd2] at hinner
            have hspk : s < pk := hinner.2.2.2 pk rc rfl
            simp only [applyPromo, hd2]
            have hsep : sepIns pk rc (.cons s (descIns order k v c rest).1.1
                (descIns order k v c rest).1.2)
                = .cons s (descIns order k v c rest).1.1
                    (sepIns pk rc (descIns order k v c rest).1.2) := by
              rw [sepIns, if_pos hspk]
            refine ⟨?_, ?_, ?_, ?_⟩
            · show wf lo (upperOf hi (sepIns pk rc (.cons s _ _))) c0 = true
              rw [hsep, upperOf]
              exact hwfc
            · show wfSeps lo hi (sepIns pk rc (.cons s _ _)) = true
              rw [hsep, wfSeps]
              simp only [Bool.and_eq_true, decide_eq_true_eq]
              exact ⟨⟨⟨hwfs'.1.1.1, hwfs'.1.1.2⟩, hinner.1⟩, hinner.2.1⟩
            · show entriesOf c0 ++ entriesSeps (sepIns pk rc (.cons s _ _))
                = insEntries k v (entriesOf c0 ++ (entriesOf c ++ entriesSeps rest))
              rw [hsep, entriesSeps, hinner.2.2.1,
                insEntries_append_left k v _ _ hc0lt]
            · intro pk' rc' h
              injection h with h1
              injection h1 with h1 h2
              subst h1
              omega
      · have hkls : k < s := by omega
        have hni := nodeIns_wf order k v lo (some s) c0 h3 hwfc hlo
          (by simpa [ltOptB] using hkls)
        have hsuffix : ∀ p ∈ entriesOf c ++ entriesSeps rest, k < p.1 := by
          intro p hp
          have : s ≤ p.1 := by
            refine entriesSeps_cons_lower lo s hi c rest hwfs p ?_
            rw [entriesSeps]
            exact hp
          omega
        rw [descIns, if_neg (by omega)]
        cases hn : nodeIns order k v c0 with
        | one c0' =>
            rw [hn] at hni
            simp only [InsOk] at hni
            simp only [applyPromo]
            refine ⟨?_, ?_, ?_, by intro pk rc h; cases h⟩
            · show wf lo (some s) c0' = true
              exact hni.1
            · exact hwfs
            · show entriesOf c0' ++ (entriesOf c ++ entriesSeps rest)
                = insEntries k v (entriesOf c0 ++ (entriesOf c ++ entriesSeps rest))
              rw [hni.2, insEntries_append_right k v _ _ hsuffix]
        | split l pk r =>
            rw [hn] at hni
            simp only [InsOk] at hni
            have hpks : pk < s := by simpa [ltOptB] using hni.2.2.2.1
            simp only [applyPromo]
            have hsep : sepIns pk r (.cons s c rest) = .cons pk r (.cons s c rest) := by
              rw [sepIns, if_neg (by omega)]
            refine ⟨?_, ?_, ?_, ?_⟩
            · show wf lo (upperOf hi (sepIns pk r (.cons s c rest))) l = true
              rw [hsep, upperOf]
              exact hni.1
            · show wfSeps lo hi (sepIns pk r (.cons s c rest)) = true
              rw [hsep, wfSeps]
              simp only [Bool.and_eq_true, decide_eq_true_eq]
              refine ⟨⟨⟨hni.2.2.1, ltOptB_trans pk s hi hpks hwfs'.1.1.2⟩, ?_⟩, ?_⟩
              · show wf pk (upperOf hi (.cons s c rest)) r = true
                rw [upperOf]
                exact hni.2.1
              · rw [wfSeps]
                simp only [Bool.and_eq_true, decide_eq_true_eq]
                exact ⟨⟨⟨hpks, hwfs'.1.1.2⟩, hwfs'.1.2⟩, hwfs'.2⟩
            · show entriesOf l ++ entriesSeps (sepIns pk r (.cons s c rest))
                = insEntries k v (entriesOf c0 ++ (entriesOf c ++ entriesSeps rest))
              rw [hsep, entriesSeps, entriesSeps, ← List.append_assoc,
                ← List.append_assoc, hni.2.2.2.2,
                insEntries_append_right k v _ _ hsuffix, List.append_assoc]
            · intro pk' rc' h
              injection h with h1
              injection h1 with h1 h2
              subst h1
              exact hni.2.2.1
termination_by sizeOf c0 + sizeOf seps

end

theorem insert_wf (t : BPlusTree) (k v : Nat) (h3 : 3 ≤ t.order)
    (hwf : wf 0 none t.root = true) :
    wf 0 none (t.insert k v).root = true
    ∧ entriesOf (t.insert k v).root = insEntries k v (entriesOf t.root)
    ∧ (t.insert k v).order = t.order := by
  have hni := nodeIns_wf t.order k v 0 none t.root h3 hwf (Nat.zero_le k) rfl
  unfold BPlusTree.insert
  cases hn : nodeIns t.order k v t.root with
  | one r =>
      rw [hn] at hni
      simp only [InsOk] at hni
      exact ⟨hni.1, hni.2, rfl⟩
  | split l pk r =>
      rw [hn] at hni
      simp only [InsOk] at hni
      refine ⟨?_, ?_, rfl⟩
      · show wf 0 none (.internal l (.cons pk r .nil)) = true
        rw [wf, wfSeps]
        simp only [Bool.and_eq_true, decide_eq_true_eq]
        refine ⟨?_, ⟨⟨hni.2.2.1, rfl⟩, ?_⟩, rfl⟩
        · show wf 0 (upperOf none (.cons pk r .nil)) l = true
          rw [upperOf]
          exact hni.1
        · show wf pk (upperOf none .nil) r = true
          rw [upperOf]
          exact hni.2.1
      · show entriesOf (.internal l (.cons pk r .nil)) = insEntries k v (entriesOf t.root)
        rw [entriesOf, entriesSeps, entriesSeps, List.append_nil]
        exact hni.2.2.2.2

theorem foldl_insert_wf (ops : List (Nat × Nat)) :
    ∀ t : BPlusTree, 3 ≤ t.order → wf 0 none t.root = true →
      3 ≤ (ops.foldl (fun t p => t.insert p.1 p.2) t).order
      ∧ wf 0 none (ops.foldl (fun t p => t.insert p.1 p.2) t).root = true
      ∧ entriesOf (ops.foldl (fun t p => t.insert p.1 p.2) t).root
          = ops.foldl (fun e p => insEntries p.1 p.2 e) (entriesOf t.root) := by
  induction ops with
  | nil =>
      intro t h1 h2
      exact ⟨h1, h2, rfl⟩
  | cons p rest ih =>
      intro t h1 h2
      obtain ⟨hw1, hw2, hw3⟩ := insert_wf t p.1 p.2 h1 h2
      have hrec := ih (t.insert p.1 p.2) (by omega) hw1
      rw [List.foldl_cons, List.foldl_cons]
      exact ⟨hrec.1, hrec.2.1, by rw [hrec.2.2, hw2]⟩

theorem buildTree_wf (order : Nat) (ops : List (Nat × Nat)) :
    3 ≤ (buildTree order ops).order
    ∧ wf 0 none (buildTree order ops).root = true
    ∧ entriesOf (buildTree order ops).root
        = ops.foldl (fun e p => insEntries p.1 p.2 e) [] :=
  foldl_insert_wf ops (BPlusTree.empty order) (Nat.le_max_left 3 order) rfl

mutual

theorem findLeaf_lookup (k lo : Nat) (hi : Option Nat) (n : BPTNode)
    (hwf : wf lo hi n = true) :
    leafSearch k (findLeafEntries k n) = leafSearch k (entriesOf n) :=
  match n with
  | .leaf e => by rw [findLeafEntries, entriesOf]
  | .internal c0 seps => by
      rw [wf] at hwf
      simp only [Bool.and_eq_true] at hwf
      rw [findLeafEntries, entriesOf]
      exact findLeafAux_lookup k lo hi c0 seps hwf.1 hwf.2
termination_by sizeOf n

theorem findLeafAux_lookup (k lo : Nat) (hi : Option Nat) (c0 : BPTNode)
    (seps : SepList) (hwfc : wf lo (upperOf hi seps) c0 = true)
    (hwfs : wfSeps lo hi seps = true) :
    leafSearch k (findLeafAux k c0 seps)
      = leafSearch k (entriesOf c0 ++ entriesSeps seps) :=
  match seps with
  | .nil => by
      rw [findLeafAux, entriesSeps, List.append_nil]
      rw [upperOf] at hwfc
      exact findLeaf_lookup k lo hi c0 hwfc
  | .cons s c rest => by
      have hwfs' := hwfs
      rw [wfSeps] at hwfs'
      simp only [Bool.and_eq_true, decide_eq_true_eq] at hwfs'
      rw [show upperOf hi (SepList.cons s c rest) = some s from rfl] at hwfc
      rw [findLeafAux]
      by_cases hks : k ≥ s
      · rw [if_pos hks, entriesSeps,
          leafSearch_append_left k (entriesOf c0) (entriesOf c ++ entriesSeps rest) ?_]
        · exact findLeafAux_lookup k s hi c rest hwfs'.1.2 hwfs'.2
        · intro hc
          rcases List.mem_map.mp hc with ⟨p, hp, rfl⟩
          have := (entries_bounds lo (some s) c0 hwfc p hp).2
          simp [ltOptB] at this
          omega
      · rw [if_neg hks,
          leafSearch_append_right k (entriesOf c0) (entriesSeps (.cons s c rest)) ?_]
        · exact findLeaf_lookup k lo (some s) c0 hwfc
        · intro hc
          rcases List.mem_map.mp hc with ⟨p, hp, rfl⟩
          have := entriesSeps_cons_lower lo s hi c rest hwfs p hp
          omega
termination_by sizeOf c0 + sizeOf seps

end

theorem search_correct (t : BPlusTree) (hwf : wf 0 none t.root = true) (k : Nat) :
    t.search k = leafSearch k (entriesOf t.root) :=
  findLeaf_lookup k 0 none t.root hwf

theorem leafSearch_foldl_not_mem (k : Nat) (ops : List (Nat × Nat)) :
    ∀ acc, k ∉ ops.map Prod.fst →
      leafSearch k (ops.foldl (fun e p => insEntries p.1 p.2 e) acc)
        = leafSearch k acc := by
  induction ops with
  | nil =>
      intro acc _
      rfl
  | cons p rest ih =>
      intro acc h
      rw [List.foldl_cons, ih _ (fun hc => h (by simp at hc ⊢; simp [hc]))]
      exact leafSearch_insEntries_other p.1 p.2 k acc
        (fun hc => h (by simp [hc]))

theorem leafSearch_foldl_found (k vk : Nat) (l2 : List (Nat × Nat))
    (acc : List (Nat × Nat)) (h : k ∉ l2.map Prod.fst) :
    leafSearch k (l2.foldl (fun e p => insEntries p.1 p.2 e) (insEntries k vk acc))
      = some vk := by
  rw [leafSearch_foldl_not_mem k l2 _ h]
  exact leafSearch_insEntries_self k vk acc

/-- claim C1: for every sequence of inserts with pairwise distinct keys (at
any order parameter), a subsequent `search` returns the inserted value for
every inserted key, and `none` for every key never inserted. -/
theorem bplus_insert_search_roundtrip (order : Nat) (ops : List (Nat × Nat))
    (hnodup : (ops.map Prod.fst).Nodup) :
    (∀ p ∈ ops, (buildTree order ops).search p.1 = some p.2)
    ∧ (∀ k, k ∉ ops.map Prod.fst → (buildTree order ops).search k = none) := by
  obtain ⟨ho, hw, he⟩ := buildTree_wf order ops
  have hsearch : ∀ k, (buildTree order ops).search k
      = leafSearch k (ops.foldl (fun e p => insEntries p.1 p.2 e) []) := by
    intro k
    rw [search_correct (buildTree order ops) hw k, he]
  constructor
  · intro p hp
    obtain ⟨l1, l2, rfl⟩ := List.append_of_mem hp
    have hk2 : p.1 ∉ l2.map Prod.fst := by
      rw [List.map_append, List.map_cons] at hnodup
      have := (List.nodup_append.mp hnodup).2.1
      exact (List.nodup_cons.mp this).1
    rw [hsearch, List.foldl_append, List.foldl_cons]
    exact leafSearch_foldl_found p.1 p.2 l2 _ hk2
  · intro k hk
    rw [hsearch, leafSearch_foldl_not_mem k ops [] hk]
    rfl

theorem bplus_insert_search_roundtrip_witness :
    ((([(2, 20), (1, 10), (3, 30)] : List (Nat × Nat)).map Prod.fst).Nodup)
    ∧ (buildTree 4 [(2, 20), (1, 10), (3, 30)]).search 1 = some 10
    ∧ (buildTree 4 [(2, 20), (1, 10), (3, 30)]).search 7 = none := by
  have h := bplus_insert_search_roundtrip 4 [(2, 20), (1, 10), (3, 30)] (by decide)
  exact ⟨by decide, h.1 (1, 10) (by decide), h.2 7 (by decide)⟩

mutual

theorem entries_eq_join_leaves (n : BPTNode) :
    entriesOf n = (leavesOf n).flatten :=
  match n with
  | .leaf e => by rw [entriesOf, leavesOf, List.flatten_cons, List.flatten_nil,
      List.append_nil]
  | .internal c0 seps => by
      rw [entriesOf, leavesOf, List.flatten_append,
        entries_eq_join_leaves c0, entriesSeps_eq_join_leaves seps]

theorem entriesSeps_eq_join_leaves (seps : SepList) :
    entriesSeps seps = (leavesSeps seps).flatten :=
  match seps with
  | .nil => rfl
  | .cons s c rest => by
      rw [entriesSeps, leavesSeps, List.flatten_append,
        entries_eq_join_leaves c, entriesSeps_eq_join_leaves rest]

end

mutual

theorem leavesFrom_decomp (k lo : Nat) (hi : Option Nat) (n : BPTNode)
    (hwf : wf lo hi n = true) :
    ∃ P, leavesOf n = P ++ leavesFrom k n
      ∧ ∀ e ∈ P, ∀ p ∈ e, p.1 < k :=
  match n with
  | .leaf e => ⟨[], by rw [leavesOf, leavesFrom]; rfl, by simp⟩
  | .internal c0 seps => by
      rw [wf] at hwf
      simp only [Bool.and_eq_true] at hwf
      rw [leavesOf, leavesFrom]
      exact leavesFromAux_decomp k lo hi c0 seps hwf.1 hwf.2
termination_by sizeOf n

theorem leavesFromAux_decomp (k lo : Nat) (hi : Option Nat) (c0 : BPTNode)
    (seps : SepList) (hwfc : wf lo (upperOf hi seps) c0 = true)
    (hwfs : wfSeps lo hi seps = true) :
    ∃ P, leavesOf c0 ++ leavesSeps seps = P ++ leavesFromAux k c0 seps
      ∧ ∀ e ∈ P, ∀ p ∈ e, p.1 < k :=
  match seps with
  | .nil => by
      rw [upperOf] at hwfc
      obtain ⟨P, hP, hPk⟩ := leavesFrom_decomp k lo hi c0 hwfc
      exact ⟨P, by rw [leavesSeps, List.append_nil, leavesFromAux, hP], hPk⟩
  | .cons s c rest => by
      have hwfs' := hwfs
      rw [wfSeps] at hwfs'
      simp only [Bool.and_eq_true, decide_eq_true_eq] at hwfs'
      rw [show upperOf hi (SepList.cons s c rest) = some s from rfl] at hwfc
      rw [leavesFromAux]
      by_cases hks : k ≥ s
      · rw [if_pos hks]
        obtain ⟨P, hP, hPk⟩ := leavesFromAux_decomp k s hi c rest hwfs'.1.2 hwfs'.2
        refine ⟨leavesOf c0 ++ P, ?_, ?_⟩
        · rw [leavesSeps, ← List.append_assoc, List.append_assoc (leavesOf c0), hP,
            List.append_assoc]
        · intro e he p hpe
          rcases List.mem_append.mp he with he | he
          · have hpj : p ∈ entriesOf c0 := by
              rw [entries_eq_join_leaves c0]
              exact List.mem_flatten.mpr ⟨e, he, hpe⟩
            have := (entries_bounds lo (some s) c0 hwfc p hpj).2
            simp [ltOptB] at this
            omega
          · exact hPk e he p hpe
      · rw [if_neg hks]
        obtain ⟨P, hP, hPk⟩ := leavesFrom_decomp k lo (some s) c0 hwfc
        refine ⟨P, ?_, hPk⟩
        rw [leavesSeps, hP, List.append_assoc]
termination_by sizeOf c0 + sizeOf seps

end

theorem sortedEntries_append_left (lo : Nat) (hi : Option Nat)
    (e1 e2 : List (Nat × Nat)) (h : sortedEntries lo hi (e1 ++ e2) = true) :
    sortedEntries lo hi e1 = true := by
  induction e1 generalizing lo with
  | nil => rfl
  | cons p rest ih =>
      obtain ⟨k0, v0⟩ := p
      rw [List.cons_append, sortedEntries] at h
      rw [sortedEntries]
      simp only [Bool.and_eq_true, decide_eq_true_eq] at h ⊢
      exact ⟨h.1, ih (k0 + 1) h.2⟩

theorem scanLeaf_spec (sk ek l0 : Nat) (hi2 : Option Nat) (e : List (Nat × Nat))
    (hs : sortedEntries l0 hi2 e = true) :
    (scanLeaf sk ek e).1 = e.filter (fun p => decide (sk ≤ p.1 ∧ p.1 ≤ ek))
    ∧ ((scanLeaf sk ek e).2 = true → ∃ p ∈ e, ek < p.1) := by
  induction e generalizing l0 with
  | nil => exact ⟨rfl, by simp [scanLeaf]⟩
  | cons p rest ih =>
      obtain ⟨k0, v0⟩ := p
      rw [sortedEntries] at hs
      simp only [Bool.and_eq_true, decide_eq_true_eq] at hs
      obtain ⟨ih1, ih2⟩ := ih (k0 + 1) hs.2
      rw [scanLeaf]
      by_cases h1 : sk ≤ k0 ∧ k0 ≤ ek
      · rw [if_pos h1]
        refine ⟨?_, ?_⟩
        · show (k0, v0) :: (scanLeaf sk ek rest).1 = _
          rw [List.filter_cons, ih1]
          simp [h1.1, h1.2]
        · intro hflag
          obtain ⟨q, hq, hq2⟩ := ih2 hflag
          exact ⟨q, by simp [hq], hq2⟩
      · rw [if_neg h1]
        by_cases h2 : ek < k0
        · rw [if_pos h2]
          refine ⟨?_, fun _ => ⟨(k0, v0), by simp, h2⟩⟩
          have hrest : rest.filter (fun p => decide (sk ≤ p.1 ∧ p.1 ≤ ek)) = [] := by
            rw [List.filter_eq_nil_iff]
            intro q hq
            have := sortedEntries_lower (k0 + 1) hi2 rest hs.2 q hq
            simp
            omega
          show ([] : List (Nat × Nat)) = _
          rw [List.filter_cons, hrest]
          have hnot : ¬(sk ≤ k0 ∧ k0 ≤ ek) := by omega
          simp [hnot]
        · rw [if_neg h2]
          refine ⟨?_, fun hf => ?_⟩
          · rw [List.filter_cons, ih1]
            have hnot : ¬(sk ≤ k0 ∧ k0 ≤ ek) := h1
            simp [hnot]
          · obtain ⟨q, hq, hq2⟩ := ih2 hf
            exact ⟨q, List.mem_cons_of_mem _ hq, hq2⟩

theorem scanChain_spec (sk ek : Nat) (chain : List (List (Nat × Nat))) :
    ∀ l0 : Nat, ∀ hi2 : Option Nat, sortedEntries l0 hi2 chain.flatten = true →
      scanChain sk ek chain
        = chain.flatten.filter (fun p => decide (sk ≤ p.1 ∧ p.1 ≤ ek)) := by
  induction chain with
  | nil =>
      intro l0 hi2 _
      rfl
  | cons e rest ih =>
      intro l0 hi2 hs
      rw [List.flatten_cons] at hs ⊢
      have hse : sortedEntries l0 hi2 e = true := sortedEntries_append_left _ _ _ _ hs
      obtain ⟨hl1, hl2⟩ := scanLeaf_spec sk ek l0 hi2 e hse
      rw [scanChain]
      by_cases hflag : (scanLeaf sk ek e).2
      · rw [if_pos hflag]
        obtain ⟨q, hq, hq2⟩ := hl2 hflag
        rw [hl1, List.filter_append]
        have : (rest.flatten).filter (fun p => decide (sk ≤ p.1 ∧ p.1 ≤ ek)) = [] := by
          rw [List.filter_eq_nil_iff.mpr]
          intro p hp
          have := sortedEntries_append_cross l0 hi2 e rest.flatten hs q hq p hp
          simp
          omega
        rw [this, List.append_nil]
      · rw [if_neg hflag, hl1,
          ih l0 hi2 (sortedEntries_append_right l0 hi2 e rest.flatten hs),
          List.filter_append]

theorem leafSearch_mem_iff (lo : Nat) (hi : Option Nat) (e : List (Nat × Nat))
    (hs : sortedEntries lo hi e = true) (k v : Nat) :
    (k, v) ∈ e ↔ leafSearch k e = some v := by
  induction e generalizing lo with
  | nil => simp [leafSearch]
  | cons p rest ih =>
      obtain ⟨k0, v0⟩ := p
      rw [sortedEntries] at hs
      simp only [Bool.and_eq_true, decide_eq_true_eq] at hs
      rw [leafSearch]
      by_cases hk : k0 = k
      · subst hk
        rw [if_pos rfl]
        constructor
        · intro hmem
          rcases List.mem_cons.mp hmem with hmem | hmem
          · simp at hmem
            rw [hmem]
          · have := sortedEntries_lower (k0 + 1) hi rest hs.2 (k0, v) hmem
            omega
        · intro hv
          simp at hv
          simp [hv]
      · rw [if_neg hk]
        rw [← ih (k0 + 1) hs.2]
        constructor
        · intro hmem
          rcases List.mem_cons.mp hmem with hmem | hmem
          · exact absurd hmem.symm (by simp [Prod.ext_iff]; intro h; exact absurd h hk)
          · exact hmem
        · exact List.mem_cons_of_mem _

/-- claim C6: On any B+ tree built by a sequence of inserts,
`range_search(lo, hi)` returns exactly the stored pairs whose key lies in
the inclusive interval `[lo, hi]`, listed in strictly ascending key
order: the output has pairwise increasing keys, and `(k, v)` appears in
it exactly when `search k = v` and `lo ≤ k ≤ hi`. -/
theorem bplus_range_search_spec (order : Nat) (ops : List (Nat × Nat))
    (lo hi : Nat) :
    ((buildTree order ops).range_search lo hi).Pairwise (fun p q => p.1 < q.1)
    ∧ ∀ k v, ((k, v) ∈ (buildTree order ops).range_search lo hi
        ↔ ((buildTree order ops).search k = some v ∧ lo ≤ k ∧ k ≤ hi)) := by
  obtain ⟨_, hw, _⟩ := buildTree_wf order ops
  obtain ⟨P, hP, hPk⟩ := leavesFrom_decomp lo 0 none (buildTree order ops).root hw
  have hjoin : entriesOf (buildTree order ops).root
      = P.flatten ++ (leavesFrom lo (buildTree order ops).root).flatten := by
    rw [entries_eq_join_leaves, hP, List.flatten_append]
  have hsorted := entries_sorted 0 none (buildTree order ops).root hw
  have hsorted2 : sortedEntries 0 none
      (leavesFrom lo (buildTree order ops).root).flatten = true := by
    rw [hjoin] at hsorted
    exact sortedEntries_append_right 0 none _ _ hsorted
  have hrange : (buildTree order ops).range_search lo hi
      = (entriesOf (buildTree order ops).root).filter
          (fun p => decide (lo ≤ p.1 ∧ p.1 ≤ hi)) := by
    rw [BPlusTree.range_search, scanChain_spec lo hi _ 0 none hsorted2, hjoin,
      List.filter_append]
    have hnil : P.flatten.filter (fun p => decide (lo ≤ p.1 ∧ p.1 ≤ hi)) = [] := by
      rw [List.filter_eq_nil_iff.mpr]
      intro p hp
      rcases List.mem_flatten.mp hp with ⟨e, he, hpe⟩
      have := hPk e he p hpe
      simp
      omega
    rw [hnil, List.nil_append]
  refine ⟨?_, ?_⟩
  · rw [hrange]
    exact List.Pairwise.sublist (List.filter_sublist _)
      (sortedEntries_pairwise 0 none _ hsorted)
  · intro k v
    rw [hrange, List.mem_filter, search_correct _ hw k,
      ← leafSearch_mem_iff 0 none _ hsorted k v]
    simp


/-! ### PlagiarismDetector.detect_plagiarism (plagiarism_detector.py) -/

/-- The mutable state of a `PlagiarismDetector`: the shared similarity
graph, the `submissions` token mapping, the B+ tree metadata store, and
the configuration attributes of the clustering and greedy-selection
objects it holds. -/
structure DetectorState where
  similarity_graph : SimilarityGraph
  submissions : List (Nat × List Nat)
  metadata_store : BPlusTree
  min_cluster_size : Nat
  max_representatives : Nat

/-- One entry of the `results` list built by `detect_plagiarism`: the
`(id, metadata)` pairs of the cluster and the representatives. -/
structure ClusterReport where
  cluster : List (Nat × Option Nat)
  representatives : List Nat

/-- The call `self.clustering.find_clusters(self.similarity_graph)` with
the state threaded through: the body of `find_clusters` only reads the
graph — it assigns no attribute of the detector, the graph, the
submissions mapping or the metadata store — so the call returns the state
it received. -/
def findClustersCall (s : DetectorState) :
    DetectorState × List (List Nat) :=
  (s, find_clusters s.similarity_graph s.min_cluster_size)

/-- The call `self.greedy_selection.select_representatives(cluster,
self.similarity_graph)`, state threaded; the body only reads the graph. -/
def selectRepresentativesCall (s : DetectorState) (cluster : List Nat) :
    DetectorState × List Nat :=
  (s, select_representatives s.max_representatives cluster s.similarity_graph)

/-- The call `self.metadata_store.search(submission_id)`, state threaded;
`BPlusTree.search` only descends the tree and reads a leaf. -/
def metadataSearchCall (s : DetectorState) (k : Nat) :
    DetectorState × Option Nat :=
  (s, s.metadata_store.search k)

/-- The `for submission_id in cluster:` loop collecting
`submissions_metadata`, with the state threaded through every
`metadata_store.search` call. -/
def metadataLoop (s : DetectorState) :
    List Nat → DetectorState × List (Nat × Option Nat)
  | [] => (s, [])
  | id0 :: rest =>
      let r := metadataSearchCall s id0
      let rr := metadataLoop r.1 rest
      (rr.1, (id0, r.2) :: rr.2)

/-- The `for cluster in clusters:` loop of `detect_plagiarism`: clusters
with more than one member yield a report (representatives first, then the
metadata loop, exactly as in the source); the state is threaded through
every call. -/
def clusterLoop (s : DetectorState) :
    List (List Nat) → DetectorState × List ClusterReport
  | [] => (s, [])
  | cluster :: rest =>
      if 1 < cluster.length then
        let r1 := selectRepresentativesCall s cluster
        let r2 := metadataLoop r1.1 cluster
        let rr := clusterLoop r2.1 rest
        (rr.1, ⟨r2.2, r1.2⟩ :: rr.2)
      else clusterLoop s rest

/-- `PlagiarismDetector.detect_plagiarism`, returning the final state and
the `results` list. -/
def detect_plagiarism (s : DetectorState) :
    DetectorState × List ClusterReport :=
  let c := findClustersCall s
  clusterLoop c.1 c.2

theorem metadataLoop_state (s : DetectorState) (ids : List Nat) :
    (metadataLoop s ids).1 = s := by
  induction ids generalizing s with
  | nil => rfl
  | cons id0 rest ih => exact ih s

theorem clusterLoop_state (s : DetectorState) (cs : List (List Nat)) :
    (clusterLoop s cs).1 = s := by
  induction cs generalizing s with
  | nil => rfl
  | cons cluster rest ih =>
      rw [clusterLoop]
      by_cases h : 1 < cluster.length
      · rw [if_pos h]
        show (clusterLoop (metadataLoop s cluster).1 rest).1 = s
        rw [metadataLoop_state s cluster]
        exact ih s
      · rw [if_neg h]
        exact ih s

/-- claim C10: `detect_plagiarism` is a read-only query: it leaves the
similarity graph, the submissions token mapping and the B+ tree metadata
store (indeed the whole detector state) unchanged, and an immediately
repeated call returns the same results.  Each callee
(`Clustering.find_clusters`, `GreedySelection.select_representatives`,
`BPlusTree.search`) contains no assignment to detector state, so its
state-threaded embedding returns the state it received; the theorem
propagates this through the two loops of `detect_plagiarism`. -/
theorem detect_plagiarism_readonly (s : DetectorState) :
    (detect_plagiarism s).1.similarity_graph = s.similarity_graph
    ∧ (detect_plagiarism s).1.submissions = s.submissions
    ∧ (detect_plagiarism s).1.metadata_store = s.metadata_store
    ∧ detect_plagiarism (detect_plagiarism s).1 = detect_plagiarism s := by
  have hstate : (detect_plagiarism s).1 = s := clusterLoop_state s _
  rw [hstate]
  exact ⟨rfl, rfl, rfl, rfl⟩

end PlagDetector
